import Mathlib

/-!
Verification of the dynamic table-schema builder (`lf.schema.TableBuilder`,
`src/lib/schema/table_builder.js`) of the lovefield repository.

The builder is embedded shallowly:
* `goog.structs.Map` / `goog.structs.Set` become association lists /
  insertion-ordered duplicate-free string lists (`mapGet`, `mapSet`,
  `setAdd`, ...) matching the goog semantics (insertion order preserved,
  `set` on an existing key replaces in place, `add` on a present element is
  a no-op).
* JavaScript values flowing through row payloads become the inductive
  `JsVal` (null, undefined, booleans, numbers, strings, `Date` objects as
  their integer timestamp, `ArrayBuffer`s as byte lists, opaque objects).
* Fallible builder methods return `Except JsError Builder`; `JsError`
  distinguishes `lf.Exception` values from native JavaScript `TypeError`s
  (the constructor evaluates `name[0].toUpperCase()` before any validation,
  which throws a `TypeError` on the empty string; `generateRowClass_`
  evaluates `index.columns[0].name`, which throws on an index declared over
  an empty column list).
* The classes produced by `generateTableClass_` / `generateRowClass_` are
  represented by the plain data they capture: `TableSchema` carries the
  column/index/constraint data plus the `functionMap` of key-extraction
  closures, and the row methods (`toDbPayload`, `deserializeRow`,
  `defaultPayload`, `keyOfIndex`) become functions over that data.
-/

/-- `lf.Type` column type enumeration. -/
inductive LfType where
  | ARRAY_BUFFER
  | BOOLEAN
  | DATE_TIME
  | INTEGER
  | NUMBER
  | STRING
  | OBJECT
deriving DecidableEq, Repr

/-- `lf.Order` sort order enumeration. -/
inductive Order where
  | ASC
  | DESC
deriving DecidableEq, Repr

/-- The only `lf.Exception.Type` value thrown by the table builder. -/
inductive LfExceptionKind where
  | SYNTAX
deriving DecidableEq, Repr

/-- An error escaping a builder method: either a thrown `lf.Exception` or a
native JavaScript `TypeError` (e.g. reading a property of `undefined`). -/
inductive JsError where
  | lfException (kind : LfExceptionKind) (message : String)
  | typeError
deriving DecidableEq, Repr

/-- A JavaScript value as it appears in row payloads and persisted records.
`vdate t` is a `Date` whose `getTime()` is `t`; `vbin bs` is an
`ArrayBuffer` holding the bytes `bs`; `vobj n` is an otherwise opaque
object. -/
inductive JsVal where
  | vnull
  | vundefined
  | vbool (b : Bool)
  | vnum (n : Int)
  | vstr (s : String)
  | vdate (t : Int)
  | vbin (bytes : List (Fin 256))
  | vobj (tag : Nat)
deriving DecidableEq, Repr

/-- `goog.structs.Map.get`: value of the first (only) entry with the key. -/
def mapGet {α : Type} : List (String × α) → String → Option α
  | [], _ => none
  | (k', v) :: rest, k => if k' = k then some v else mapGet rest k

/-- `goog.structs.Map.containsKey`. -/
def mapContainsKey {α : Type} (m : List (String × α)) (k : String) : Bool :=
  (mapGet m k).isSome

/-- `goog.structs.Map.set`: replace the value in place when the key exists,
otherwise append (insertion order preserved, as `getKeys` exposes it). -/
def mapSet {α : Type} : List (String × α) → String → α → List (String × α)
  | [], k, v => [(k, v)]
  | (k', v') :: rest, k, v =>
      if k' = k then (k', v) :: rest else (k', v') :: mapSet rest k v

/-- `goog.structs.Set.contains` for string sets. -/
def setContains (s : List String) (k : String) : Bool :=
  s.contains k

/-- `goog.structs.Set.add`: no-op when the element is present, otherwise
append (insertion order preserved, as `getValues` exposes it). -/
def setAdd (s : List String) (k : String) : List String :=
  if setContains s k then s else s ++ [k]

/-- JavaScript `s.indexOf(c) != -1`. -/
def containsChar (s : String) (c : Char) : Bool :=
  s.toList.contains c

/-- The regular expression `^[A-Za-z_][A-Za-z0-9_]*$` of `checkName_`. -/
def validName (s : String) : Bool :=
  match s.toList with
  | [] => false
  | c :: rest =>
      (c.isAlpha || c = '_') && rest.all (fun d => d.isAlphanum || d = '_')

/-- An entry of `lf.schema.IndexedColumn` as produced by
`normalizeColumns_`. -/
structure IndexedColumn where
  name : String
  order : Order
  autoIncrement : Bool
deriving DecidableEq, Repr

/-- The private state of an `lf.schema.TableBuilder` instance. -/
structure Builder where
  name : String
  columns : List (String × LfType)
  uniqueColumns : List String
  uniqueIndices : List String
  nullable : List String
  pkName : String
  indices : List (String × List IndexedColumn)
  persistIndex : Bool
deriving DecidableEq, Repr

/-- `lf.schema.TableBuilder.toPascal_`: `name[0].toUpperCase() +
name.substring(1)`.  On the empty string `name[0]` is `undefined` and
`.toUpperCase()` throws a `TypeError`. -/
def toPascal (s : String) : Except JsError String :=
  match s.toList with
  | [] => .error .typeError
  | c :: rest => .ok ⟨c.toUpper :: rest⟩

/-- `lf.schema.TableBuilder.prototype.checkName_`. -/
def checkName (b : Builder) (name : String) : Except JsError Unit :=
  if validName name = false then
    .error (.lfException .SYNTAX (name ++ " violates naming rule"))
  else if mapContainsKey b.columns name || mapContainsKey b.indices name ||
      setContains b.uniqueIndices name then
    .error (.lfException .SYNTAX (b.name ++ "." ++ name ++ " is already defined"))
  else
    .ok ()

/-- The `lf.schema.TableBuilder` constructor: all fields (including
`pkName_`, whose computation via `toPascal_` can throw a `TypeError`) are
initialized before `checkName_(tableName)` runs. -/
def newBuilder (tableName : String) : Except JsError Builder :=
  match toPascal tableName with
  | .error e => .error e
  | .ok pas =>
      let b : Builder :=
        { name := tableName, columns := [], uniqueColumns := [],
          uniqueIndices := [], nullable := [], pkName := "pk" ++ pas,
          indices := [], persistIndex := false }
      match checkName b tableName with
      | .error e => .error e
      | .ok _ => .ok b

/-- The two shapes `normalizeColumns_` accepts: an array of column names or
an array of `IndexedColumn` objects (the JS code dispatches on
`typeof columns[0] == 'string'`; both shapes of an empty array normalize to
the empty array). -/
inductive ColsArg where
  | strs (names : List String)
  | objs (cols : List IndexedColumn)
deriving DecidableEq, Repr

/-- The pure normalization step of `normalizeColumns_`: names become
`IndexedColumn`s with `opt_order || lf.Order.ASC` and
`opt_autoInc || false`; object arrays pass through unchanged. -/
def normalizeArg (carg : ColsArg) (order : Option Order) (autoInc : Option Bool) :
    List IndexedColumn :=
  match carg with
  | .strs names => names.map (fun n => ⟨n, order.getD .ASC, autoInc.getD false⟩)
  | .objs cols => cols

/-- The consistency checks of `normalizeColumns_`: every referenced column
must be defined, and (when `checkIndexable`) must not be of type
`ARRAY_BUFFER` or `OBJECT`. -/
def checkCols (b : Builder) (checkIndexable : Bool) :
    List IndexedColumn → Except JsError Unit
  | [] => .ok ()
  | col :: rest =>
      if mapContainsKey b.columns col.name = false then
        .error (.lfException .SYNTAX (b.name ++ " does not have column: " ++ col.name))
      else if checkIndexable &&
          (mapGet b.columns col.name = some .ARRAY_BUFFER ||
           mapGet b.columns col.name = some .OBJECT) then
        .error (.lfException .SYNTAX
          (b.name ++ " index on non-indexable column: " ++ col.name))
      else
        checkCols b checkIndexable rest

/-- `lf.schema.TableBuilder.prototype.normalizeColumns_`. -/
def normalizeColumns (b : Builder) (carg : ColsArg) (checkIndexable : Bool)
    (order : Option Order) (autoInc : Option Bool) :
    Except JsError (List IndexedColumn) :=
  let normalized := normalizeArg carg order autoInc
  match checkCols b checkIndexable normalized with
  | .error e => .error e
  | .ok _ => .ok normalized

namespace TableBuilder

/-- `lf.schema.TableBuilder.prototype.addColumn`. -/
def addColumn (b : Builder) (name : String) (ty : LfType) :
    Except JsError Builder :=
  match checkName b name with
  | .error e => .error e
  | .ok _ => .ok { b with columns := mapSet b.columns name ty }

/-- `lf.schema.TableBuilder.prototype.addPrimaryKey`. -/
def addPrimaryKey (b : Builder) (carg : ColsArg) (autoInc : Option Bool) :
    Except JsError Builder :=
  match checkName b b.pkName with
  | .error e => .error e
  | .ok _ =>
      match normalizeColumns b carg true none autoInc with
      | .error e => .error e
      | .ok cols =>
          .ok { b with
                uniqueColumns := cols.foldl (fun s c => setAdd s c.name) b.uniqueColumns,
                uniqueIndices := setAdd b.uniqueIndices b.pkName,
                indices := mapSet b.indices b.pkName cols }

/-- `lf.schema.TableBuilder.prototype.addForeignKey`: the body is
`// TODO(arthurhsu): implement. return this;` — a no-op. -/
def addForeignKey (b : Builder) (_name _localColumn _remoteTable _remoteColumn : String)
    (_cascade : Option Bool) : Except JsError Builder :=
  .ok b

/-- `lf.schema.TableBuilder.prototype.addUnique`. -/
def addUnique (b : Builder) (name : String) (columns : List String) :
    Except JsError Builder :=
  match checkName b name with
  | .error e => .error e
  | .ok _ =>
      match normalizeColumns b (.strs columns) true none none with
      | .error e => .error e
      | .ok cols =>
          .ok { b with
                indices := mapSet b.indices name cols,
                uniqueIndices := setAdd b.uniqueIndices name }

/-- `lf.schema.TableBuilder.prototype.addNullable`. -/
def addNullable (b : Builder) (columns : List String) : Except JsError Builder :=
  match normalizeColumns b (.strs columns) false none none with
  | .error e => .error e
  | .ok cols =>
      .ok { b with nullable := cols.foldl (fun s c => setAdd s c.name) b.nullable }

/-- `lf.schema.TableBuilder.prototype.addIndex`: `opt_unique` truthy means
`some true` in this embedding. -/
def addIndex (b : Builder) (name : String) (carg : ColsArg)
    (order : Option Order) (uniq : Option Bool) : Except JsError Builder :=
  match checkName b name with
  | .error e => .error e
  | .ok _ =>
      match normalizeColumns b carg true order none with
      | .error e => .error e
      | .ok cols =>
          .ok { b with
                uniqueIndices :=
                  if uniq.getD false then setAdd b.uniqueIndices name
                  else b.uniqueIndices,
                indices := mapSet b.indices name cols }

/-- `lf.schema.TableBuilder.prototype.persistIndex`. -/
def setPersistIndex (b : Builder) (v : Bool) : Builder :=
  { b with persistIndex := v }

end TableBuilder

/-- One call on a `TableBuilder` instance, for reasoning about call
histories. -/
inductive Op where
  | addColumn (name : String) (ty : LfType)
  | addPrimaryKey (carg : ColsArg) (autoInc : Option Bool)
  | addForeignKey (name localColumn remoteTable remoteColumn : String)
      (cascade : Option Bool)
  | addUnique (name : String) (columns : List String)
  | addNullable (columns : List String)
  | addIndex (name : String) (carg : ColsArg) (order : Option Order)
      (uniq : Option Bool)
  | persistIndex (v : Bool)
deriving DecidableEq, Repr

/-- Dispatch one builder call. -/
def applyOp (b : Builder) : Op → Except JsError Builder
  | .addColumn n ty => TableBuilder.addColumn b n ty
  | .addPrimaryKey carg ai => TableBuilder.addPrimaryKey b carg ai
  | .addForeignKey n lc rt rc c => TableBuilder.addForeignKey b n lc rt rc c
  | .addUnique n cols => TableBuilder.addUnique b n cols
  | .addNullable cols => TableBuilder.addNullable b cols
  | .addIndex n carg o u => TableBuilder.addIndex b n carg o u
  | .persistIndex v => .ok (TableBuilder.setPersistIndex b v)

/-- Run a sequence of builder calls, stopping at the first thrown error. -/
def applyOps (b : Builder) : List Op → Except JsError Builder
  | [] => .ok b
  | op :: rest =>
      match applyOp b op with
      | .error e => .error e
      | .ok b' => applyOps b' rest

/-- `new lf.schema.TableBuilder(tableName)` followed by a sequence of
builder calls. -/
def buildFrom (tableName : String) (ops : List Op) : Except JsError Builder :=
  match newBuilder tableName with
  | .error e => .error e
  | .ok b0 => applyOps b0 ops

/-! ## The schema objects produced by `getSchema()`

`lf.schema.Index`, `lf.schema.BaseColumn`, `lf.schema.Constraint` and the
base class `lf.schema.Table` are collaborators of the builder whose sources
are not part of this repository snapshot; they are plain data holders here.
-/

/-- Modelled from the spec: `lf.schema.Index` (index definitions supplied
by the schema collaborator; the file is not under `src/`).  A data holder
for `(tableName, name, isUnique, columns)`; its normalized name is the
table-qualified index name `tableName + '.' + name`. -/
structure IndexSchema where
  tableName : String
  name : String
  isUnique : Bool
  columns : List IndexedColumn
deriving DecidableEq, Repr

/-- Modelled from the spec: `lf.schema.Index.prototype.getNormalizedName`. -/
def IndexSchema.getNormalizedName (i : IndexSchema) : String :=
  i.tableName ++ "." ++ i.name

/-- Modelled from the spec: `lf.schema.BaseColumn` (typed column list
supplied by the schema collaborator), as constructed by the generated table
class: `new lf.schema.BaseColumn(this, colName, unique, type)`. -/
structure BaseColumn where
  name : String
  isUnique : Bool
  ty : LfType
deriving DecidableEq, Repr

/-- A declared foreign-key definition (constraint metadata of the spec).
`addForeignKey` is an unimplemented TODO in the source, so no value of this
type is ever constructed by the builder. -/
structure ForeignKeySpec where
  name : String
  localColumn : String
  remoteTable : String
  remoteColumn : String
  cascade : Bool
deriving DecidableEq, Repr

/-- Modelled from the spec: `lf.schema.Constraint` (constraint metadata:
primary key, nullable, foreign key, unique), a data holder as constructed
by `new lf.schema.Constraint(pk, notNullable, foreignKeys, unique)`. -/
structure Constraint where
  primaryKey : Option IndexSchema
  notNullable : List BaseColumn
  foreignKeys : List ForeignKeySpec
  unique : List IndexSchema
deriving DecidableEq, Repr

/-- A row payload: a JavaScript object mapping column names to values. -/
abbrev Payload := List (String × JsVal)

/-- Property read `payload[key]` (missing keys read as `undefined`). -/
def getVal (p : Payload) (k : String) : JsVal :=
  (mapGet p k).getD .vundefined

/-- The instance produced by `generateTableClass_` / `getSchema()`:
the captured column, index and constraint data, plus the `functionMap` of
key-extraction closures that `generateRowClass_` builds for `keyOfIndex`. -/
structure TableSchema where
  name : String
  cols : List BaseColumn
  indices : List IndexSchema
  persistentIndex : Bool
  constraint : Constraint
  functionMap : List (String × (Payload → JsVal))

/-- The `indices` array captured by `generateTableClass_`:
`new lf.schema.Index(name, indexName, uniqueIndices.contains(indexName),
indices.get(indexName))` in `indices_.getKeys()` order. -/
def tableIndices (b : Builder) : List IndexSchema :=
  b.indices.map (fun p => ⟨b.name, p.1, setContains b.uniqueIndices p.1, p.2⟩)

/-- The `cols_` array of the generated table class:
`new lf.schema.BaseColumn(this, colName, uniqueColumns.contains(colName),
columns.get(colName))` in `columns_.getKeys()` order. -/
def tableCols (b : Builder) : List BaseColumn :=
  b.columns.map (fun p => ⟨p.1, setContains b.uniqueColumns p.1, p.2⟩)

/-- The `pk` constraint member: a fresh always-unique `lf.schema.Index`
when `indices_` contains the primary-key name, else `null`. -/
def tablePk (b : Builder) : Option IndexSchema :=
  if mapContainsKey b.indices b.pkName then
    some ⟨b.name, b.pkName, true, (mapGet b.indices b.pkName).getD []⟩
  else
    none

/-- The `notNullable` constraint member: the columns not registered in
`nullable_`. -/
def tableNotNullable (b : Builder) : List BaseColumn :=
  (tableCols b).filter (fun c => !(setContains b.nullable c.name))

/-- The `unique` constraint member: one always-unique `lf.schema.Index`
per name in `uniqueIndices_.getValues()` (reading `indices_.get(name)`,
`undefined` modelled as the empty column list). -/
def tableUnique (b : Builder) : List IndexSchema :=
  b.uniqueIndices.map (fun n => ⟨b.name, n, true, (mapGet b.indices n).getD []⟩)

/-- `this.payload()[firstColumnName]` read used by the key extractors. -/
def getTimeVal : JsVal → JsVal
  | .vdate t => .vnum t
  | _ => .vundefined

/-- One `functionMap` closure of `generateRowClass_`: keyed on the builder
type of the index's first column; `payload[firstColumnName].getTime()` for
`DATE_TIME` columns, the raw `payload[firstColumnName]` otherwise.
(`getTime()` on a non-`Date` is a JavaScript error, modelled as
`vundefined`.) -/
def indexKeyFn (bcols : List (String × LfType)) (firstColumnName : String) :
    Payload → JsVal :=
  if mapGet bcols firstColumnName = some .DATE_TIME then
    fun p => getTimeVal (getVal p firstColumnName)
  else
    fun p => getVal p firstColumnName

/-- `generateRowClass_` reads `index.columns[0].name` for every index, a
`TypeError` when an index was declared over an empty column list; the
generated table class (and hence `getSchema()`) only exists when this
holds. -/
def rowClassOk (b : Builder) : Bool :=
  b.indices.all (fun p => !p.2.isEmpty)

/-- The `functionMap` built by `generateRowClass_`, keyed by normalized
index name.  An index with no columns throws a `TypeError` in the source
(see `rowClassOk`); such an index contributes no entry here, and the
function is only used under `rowClassOk`. -/
def functionMapOf (b : Builder) : List (String × (Payload → JsVal)) :=
  (tableIndices b).foldl
    (fun fm i =>
      match i.columns with
      | [] => fm
      | c0 :: _ => mapSet fm i.getNormalizedName (indexKeyFn b.columns c0.name))
    []

/-- The data captured by the table instance that `getSchema()` returns. -/
def mkTable (b : Builder) : TableSchema :=
  { name := b.name
    cols := tableCols b
    indices := tableIndices b
    persistentIndex := b.persistIndex
    constraint :=
      ⟨tablePk b, tableNotNullable b, [], tableUnique b⟩
    functionMap := functionMapOf b }

/-- `lf.schema.TableBuilder.prototype.getSchema`: constructing the table
class runs `generateRowClass_`, which throws a `TypeError` when some
declared index has no columns. -/
def getSchema (b : Builder) : Except JsError TableSchema :=
  if rowClassOk b then .ok (mkTable b) else .error .typeError

/-! ## Rows and the serialization contract -/

/-- Modelled from the spec: `lf.type.DEFAULT_VALUES` (per-type default
payload values of the row factory; `lf/type.js` is not under `src/`). -/
def DEFAULT_VALUES : LfType → JsVal
  | .ARRAY_BUFFER => .vnull
  | .BOOLEAN => .vbool false
  | .DATE_TIME => .vdate 0
  | .INTEGER => .vnum 0
  | .NUMBER => .vnum 0
  | .STRING => .vstr ""
  | .OBJECT => .vnull

/-- A row instance of the generated row class (`lf.Row` subclass): its id
and its payload object. -/
structure Row where
  id : Int
  payload : Payload
deriving DecidableEq, Repr

/-- Build a JavaScript object by assigning `obj[col.name] = f col` for each
column in order (`var obj = {}; columns.forEach(...)`). -/
def buildObj (cols : List BaseColumn) (f : BaseColumn → JsVal) : Payload :=
  cols.foldl (fun o c => mapSet o c.name (f c)) []

/-- `rowClass.prototype.defaultPayload`. -/
def defaultPayload (cols : List BaseColumn) : Payload :=
  buildObj cols (fun c => DEFAULT_VALUES c.ty)

/-- Modelled from the spec: the `lf.Row` base-class constructor
(`lf/row.js` is not under `src/`): `payload_ = opt_payload ||
this.defaultPayload()`. -/
def mkRowInstance (cols : List BaseColumn) (rowId : Int)
    (optPayload : Option Payload) : Row :=
  ⟨rowId, match optPayload with
          | some p => p
          | none => defaultPayload cols⟩

/-- `tableClass.prototype.createRow`; `lf.Row.getNextId()` is global
mutable state, passed explicitly as `rowId`. -/
def createRow (t : TableSchema) (rowId : Int) (optValue : Option Payload) : Row :=
  mkRowInstance t.cols rowId optValue

/-- The hexadecimal digit character for one nibble: `0`-`9` then
`a`-`f`. -/
def hexDigit (d : Fin 16) : Char :=
  if d.val < 10 then Char.ofNat ('0'.toNat + d.val)
  else Char.ofNat ('a'.toNat + (d.val - 10))

/-- Inverse hexadecimal digit lookup (other characters read as 0). -/
def fromHexDigit (c : Char) : Nat :=
  if '0' ≤ c ∧ c ≤ '9' then c.toNat - '0'.toNat
  else if 'a' ≤ c ∧ c ≤ 'f' then 10 + (c.toNat - 'a'.toNat)
  else 0

/-- Two hexadecimal characters for one byte. -/
def byteToChars (b : Fin 256) : List Char :=
  [hexDigit ⟨b.val / 16, by have := b.isLt; omega⟩,
   hexDigit ⟨b.val % 16, by have := b.isLt; omega⟩]

/-- Modelled from the spec: `lf.Row.binToHex` (the binary payload → hex
string coercion of the serialization contract; `lf/row.js` is not under
`src/`). -/
def binToHex (bytes : List (Fin 256)) : String :=
  ⟨bytes.foldr (fun b acc => byteToChars b ++ acc) []⟩

/-- Parse hexadecimal characters two at a time into bytes. -/
def hexPairsToBytes : List Char → List (Fin 256)
  | c1 :: c2 :: rest =>
      ⟨(fromHexDigit c1 * 16 + fromHexDigit c2) % 256, by omega⟩ ::
        hexPairsToBytes rest
  | _ => []

/-- Modelled from the spec: `lf.Row.hexToBin` (the hex string → binary
payload coercion of the serialization contract). -/
def hexToBin (s : String) : List (Fin 256) :=
  hexPairsToBytes s.toList

/-- `lf.Row.binToHex` applied to a payload value (`null` was already
filtered by the caller; a non-`ArrayBuffer` argument is a JavaScript
error, modelled as `vundefined`). -/
def binToHexVal : JsVal → JsVal
  | .vbin bs => .vstr (binToHex bs)
  | _ => .vundefined

/-- `lf.Row.hexToBin` applied to a persisted value. -/
def hexToBinVal : JsVal → JsVal
  | .vstr s => .vbin (hexToBin s)
  | _ => .vundefined

/-- `new Date(value)` on a persisted timestamp. -/
def newDateVal : JsVal → JsVal
  | .vnum t => .vdate t
  | _ => .vundefined

/-- The per-column coercion of `rowClass.prototype.toDbPayload`
(`goog.isNull(value)` is `value === null`). -/
def serializeVal (ty : LfType) (value : JsVal) : JsVal :=
  if ty = .ARRAY_BUFFER then
    if value = .vnull then value else binToHexVal value
  else if ty = .DATE_TIME then
    if value = .vnull then value else getTimeVal value
  else
    value

/-- The per-column coercion of `tableClass.prototype.deserializeRow`. -/
def deserializeVal (ty : LfType) (value : JsVal) : JsVal :=
  if ty = .ARRAY_BUFFER then
    if value = .vnull then value else hexToBinVal value
  else if ty = .DATE_TIME then
    if value = .vnull then value else newDateVal value
  else
    value

/-- `rowClass.prototype.toDbPayload`. -/
def toDbPayload (cols : List BaseColumn) (p : Payload) : Payload :=
  buildObj cols (fun c => serializeVal c.ty (getVal p c.name))

/-- A persisted record `{id: ..., value: ...}`. -/
structure DbRecord where
  id : Int
  value : Payload
deriving DecidableEq, Repr

/-- `tableClass.prototype.deserializeRow`. -/
def deserializeRow (cols : List BaseColumn) (rec : DbRecord) : Row :=
  ⟨rec.id, buildObj cols (fun c => deserializeVal c.ty (getVal rec.value c.name))⟩

/-- `rowClass.prototype.keyOfIndex`. -/
def keyOfIndex (t : TableSchema) (row : Row) (indexName : String) : JsVal :=
  if containsChar indexName '#' then
    .vnum row.id
  else
    match mapGet t.functionMap indexName with
    | some f => f row.payload
    | none => .vnull

/-! ## Association-list and set lemmas -/

theorem mapGet_set_self {α : Type} (m : List (String × α)) (k : String) (v : α) :
    mapGet (mapSet m k v) k = some v := by
  induction m with
  | nil => simp [mapSet, mapGet]
  | cons p rest ih =>
      obtain ⟨k', v'⟩ := p
      by_cases h : k' = k
      · simp [mapSet, h, mapGet]
      · simp [mapSet, h, mapGet, ih]

theorem mapGet_set_ne {α : Type} (m : List (String × α)) (k : String) (v : α)
    (k' : String) (h : k' ≠ k) : mapGet (mapSet m k v) k' = mapGet m k' := by
  have hks : ¬(k = k') := fun hh => h hh.symm
  induction m with
  | nil => simp [mapSet, mapGet, hks]
  | cons p rest ih =>
      obtain ⟨k'', v''⟩ := p
      by_cases hk : k'' = k
      · have hne : ¬(k'' = k') := by rw [hk]; exact hks
        simp [mapSet, hk, mapGet, hne, hks]
      · by_cases hk' : k'' = k'
        · simp [mapSet, hk, mapGet, hk', h]
        · simp [mapSet, hk, mapGet, hk', ih]

theorem mapGet_eq_some_mem {α : Type} {m : List (String × α)} {k : String} {v : α}
    (h : mapGet m k = some v) : (k, v) ∈ m := by
  induction m with
  | nil => simp [mapGet] at h
  | cons p rest ih =>
      obtain ⟨k', v'⟩ := p
      by_cases hk : k' = k
      · subst hk
        simp [mapGet] at h
        simp [h]
      · simp [mapGet, hk] at h
        exact List.mem_cons_of_mem _ (ih h)

theorem mapGet_mem_nodup {α : Type} {m : List (String × α)} {k : String} {v : α}
    (hnd : (m.map Prod.fst).Nodup) (hmem : (k, v) ∈ m) : mapGet m k = some v := by
  induction m with
  | nil => simp at hmem
  | cons p rest ih =>
      obtain ⟨k', v'⟩ := p
      simp only [List.map_cons, List.nodup_cons] at hnd
      rcases List.mem_cons.mp hmem with h | h
      · obtain ⟨rfl, rfl⟩ := Prod.mk.injEq .. ▸ h
        simp_all [mapGet]
      · have hne : k' ≠ k := by
          rintro rfl
          exact hnd.1 (List.mem_map.mpr ⟨(k', v), h, rfl⟩)
        simp [mapGet, hne, ih hnd.2 h]

theorem mapContainsKey_iff {α : Type} (m : List (String × α)) (k : String) :
    mapContainsKey m k = true ↔ k ∈ m.map Prod.fst := by
  induction m with
  | nil => simp [mapContainsKey, mapGet]
  | cons p rest ih =>
      obtain ⟨k', v'⟩ := p
      by_cases hk : k' = k
      · simp [mapContainsKey, mapGet, hk]
      · simpa [mapContainsKey, mapGet, hk, Ne.symm hk] using ih

theorem mapContainsKey_false_iff {α : Type} (m : List (String × α)) (k : String) :
    mapContainsKey m k = false ↔ k ∉ m.map Prod.fst := by
  rw [← mapContainsKey_iff]
  cases mapContainsKey m k <;> simp

theorem mapSet_map_fst {α : Type} (m : List (String × α)) (k : String) (v : α) :
    (mapSet m k v).map Prod.fst =
      if mapContainsKey m k then m.map Prod.fst else m.map Prod.fst ++ [k] := by
  induction m with
  | nil => simp [mapSet, mapContainsKey, mapGet]
  | cons p rest ih =>
      obtain ⟨k', v'⟩ := p
      by_cases hk : k' = k
      · simp [mapSet, hk, mapContainsKey, mapGet]
      · simp only [mapSet, if_neg hk, List.map_cons, ih, mapContainsKey, mapGet,
          if_neg hk]
        by_cases hmem : mapContainsKey rest k
        · simp [mapContainsKey] at hmem
          simp [hmem, mapContainsKey]
        · simp [mapContainsKey] at hmem
          simp [hmem, mapContainsKey]

theorem mapSet_nodup {α : Type} (m : List (String × α)) (k : String) (v : α)
    (hnd : (m.map Prod.fst).Nodup) : ((mapSet m k v).map Prod.fst).Nodup := by
  rw [mapSet_map_fst]
  by_cases h : mapContainsKey m k
  · simpa [h]
  · rw [if_neg h]
    refine List.Nodup.append hnd (List.nodup_singleton _) ?_
    intro a ha hb
    simp only [List.mem_singleton] at hb
    exact (mapContainsKey_false_iff m k).mp (by simpa using h) (hb ▸ ha)

theorem setContains_iff (s : List String) (k : String) :
    setContains s k = true ↔ k ∈ s := by
  simp [setContains]

theorem mem_setAdd (s : List String) (k n : String) :
    n ∈ setAdd s k ↔ n ∈ s ∨ n = k := by
  by_cases h : setContains s k
  · have := (setContains_iff s k).mp h
    simp only [setAdd, if_pos h]
    constructor
    · exact Or.inl
    · rintro (hn | rfl)
      · exact hn
      · exact this
  · simp [setAdd, h]

theorem mem_foldl_setAdd {α : Type} (f : α → String) (l : List α)
    (s : List String) (n : String) :
    n ∈ l.foldl (fun s c => setAdd s (f c)) s ↔ n ∈ s ∨ ∃ c ∈ l, f c = n := by
  induction l generalizing s with
  | nil => simp
  | cons c rest ih =>
      simp only [List.foldl_cons, ih, mem_setAdd, List.mem_cons]
      constructor
      · rintro ((h | rfl) | ⟨d, hd, rfl⟩)
        · exact Or.inl h
        · exact Or.inr ⟨c, Or.inl rfl, rfl⟩
        · exact Or.inr ⟨d, Or.inr hd, rfl⟩
      · rintro (h | ⟨d, hd | hd, rfl⟩)
        · exact Or.inl (Or.inl h)
        · subst hd; exact Or.inl (Or.inr rfl)
        · exact Or.inr ⟨d, hd, rfl⟩

/-! ## Object-building lemmas -/

theorem mapGet_foldObj_skip (cols : List BaseColumn) (f : BaseColumn → JsVal)
    (o : Payload) (n : String) (h : ∀ c ∈ cols, c.name ≠ n) :
    mapGet (cols.foldl (fun o c => mapSet o c.name (f c)) o) n = mapGet o n := by
  induction cols generalizing o with
  | nil => rfl
  | cons c rest ih =>
      simp only [List.foldl_cons]
      rw [ih _ (fun d hd => h d (List.mem_cons_of_mem _ hd)),
        mapGet_set_ne _ _ _ _ (Ne.symm (h c (List.mem_cons_self c rest)))]

theorem mapGet_foldObj_mem (cols : List BaseColumn) (f : BaseColumn → JsVal)
    (o : Payload) (c : BaseColumn) (hnd : (cols.map BaseColumn.name).Nodup)
    (hmem : c ∈ cols) :
    mapGet (cols.foldl (fun o c => mapSet o c.name (f c)) o) c.name = some (f c) := by
  induction cols generalizing o with
  | nil => simp at hmem
  | cons d rest ih =>
      simp only [List.map_cons, List.nodup_cons] at hnd
      rcases List.mem_cons.mp hmem with rfl | hc
      · simp only [List.foldl_cons]
        rw [mapGet_foldObj_skip _ f _ _ ?hskip, mapGet_set_self]
        intro e he
        intro heq
        exact hnd.1 (heq ▸ List.mem_map.mpr ⟨e, he, rfl⟩)
      · simp only [List.foldl_cons]
        exact ih _ hnd.2 hc

theorem getVal_buildObj (cols : List BaseColumn) (f : BaseColumn → JsVal)
    (c : BaseColumn) (hnd : (cols.map BaseColumn.name).Nodup) (hmem : c ∈ cols) :
    getVal (buildObj cols f) c.name = f c := by
  simp [getVal, buildObj, mapGet_foldObj_mem cols f [] c hnd hmem]

/-! ## Hex codec lemmas -/

theorem fromHexDigit_hexDigit : ∀ d : Fin 16, fromHexDigit (hexDigit d) = d.val := by
  decide

theorem hexPairsToBytes_byteToChars (b : Fin 256) (l : List Char) :
    hexPairsToBytes (byteToChars b ++ l) = b :: hexPairsToBytes l := by
  have h1 := fromHexDigit_hexDigit ⟨b.val / 16, by have := b.isLt; omega⟩
  have h2 := fromHexDigit_hexDigit ⟨b.val % 16, by have := b.isLt; omega⟩
  simp only [byteToChars, List.cons_append, List.nil_append, hexPairsToBytes, h1, h2]
  congr 1
  apply Fin.ext
  have := b.isLt
  simp only
  omega

theorem hexPairsToBytes_foldr (bytes : List (Fin 256)) :
    hexPairsToBytes (bytes.foldr (fun b acc => byteToChars b ++ acc) []) = bytes := by
  induction bytes with
  | nil => rfl
  | cons b rest ih =>
      simp only [List.foldr_cons, hexPairsToBytes_byteToChars, ih]

theorem hexToBin_binToHex (bytes : List (Fin 256)) :
    hexToBin (binToHex bytes) = bytes := by
  show hexPairsToBytes
    (String.toList ⟨bytes.foldr (fun b acc => byteToChars b ++ acc) []⟩) = bytes
  exact hexPairsToBytes_foldr bytes

/-- The well-typedness of a payload value for a column type, as claim C1
states it: an `ArrayBuffer` or `null` for `ARRAY_BUFFER` columns, a `Date`
or `null` for `DATE_TIME` columns, anything for the rest. -/
def wtVal : LfType → JsVal → Bool
  | .ARRAY_BUFFER, .vnull => true
  | .ARRAY_BUFFER, .vbin _ => true
  | .ARRAY_BUFFER, _ => false
  | .DATE_TIME, .vnull => true
  | .DATE_TIME, .vdate _ => true
  | .DATE_TIME, _ => false
  | _, _ => true

theorem deserializeVal_serializeVal (ty : LfType) (v : JsVal)
    (h : wtVal ty v = true) : deserializeVal ty (serializeVal ty v) = v := by
  cases ty <;> cases v <;>
    simp_all [wtVal, serializeVal, deserializeVal, binToHexVal, hexToBinVal,
      getTimeVal, newDateVal, hexToBin_binToHex]

/-! ## Error classification of the builder methods -/

/-- The computation threw an `lf.Exception` of type `SYNTAX`. -/
def isSyntaxError {α : Type} : Except JsError α → Bool
  | .error (.lfException .SYNTAX _) => true
  | _ => false

/-- The computation threw a native JavaScript `TypeError`. -/
def isTypeErr {α : Type} : Except JsError α → Bool
  | .error .typeError => true
  | _ => false

/-- The computation returned normally. -/
def exOk {α : Type} : Except JsError α → Bool
  | .ok _ => true
  | _ => false

/-- `checkName_` accepts the name: it matches the pattern and is not yet
defined as a column, index or unique index. -/
def nameOk (b : Builder) (n : String) : Bool :=
  validName n &&
    !(mapContainsKey b.columns n || mapContainsKey b.indices n ||
      setContains b.uniqueIndices n)

/-- `normalizeColumns_` rejects the referenced column name: it is
undefined, or (under `checkIndexable`) of a non-indexable type. -/
def colBad (b : Builder) (checkIndexable : Bool) (n : String) : Bool :=
  if mapContainsKey b.columns n = false then true
  else if checkIndexable &&
      (mapGet b.columns n = some .ARRAY_BUFFER ||
       mapGet b.columns n = some .OBJECT) then true
  else false

/-- The column names referenced by either shape of a columns argument. -/
def argNames : ColsArg → List String
  | .strs l => l
  | .objs l => l.map IndexedColumn.name

theorem normalizeArg_names (carg : ColsArg) (o : Option Order) (ai : Option Bool) :
    (normalizeArg carg o ai).map IndexedColumn.name = argNames carg := by
  cases carg with
  | strs names =>
      induction names with
      | nil => rfl
      | cons a t ih => simpa [normalizeArg, argNames] using ih
  | objs cols => rfl

theorem checkName_of_nameOk {b : Builder} {n : String} (h : nameOk b n = true) :
    checkName b n = .ok () := by
  simp only [nameOk, Bool.and_eq_true, Bool.not_eq_true', Bool.or_eq_false_iff] at h
  simp [checkName, h.1, h.2.1, h.2.2]

theorem checkName_of_not_nameOk {b : Builder} {n : String} (h : nameOk b n = false) :
    ∃ msg, checkName b n = .error (.lfException .SYNTAX msg) := by
  by_cases hv : validName n = true
  · simp only [nameOk, hv, Bool.true_and, Bool.not_eq_false'] at h
    refine ⟨b.name ++ "." ++ n ++ " is already defined", ?_⟩
    simp [checkName, hv, h]
  · refine ⟨n ++ " violates naming rule", ?_⟩
    simp only [Bool.not_eq_true] at hv
    simp [checkName, hv]

theorem checkCols_of_ok {b : Builder} {chk : Bool} {l : List IndexedColumn}
    (h : (l.any (fun c => colBad b chk c.name)) = false) :
    checkCols b chk l = .ok () := by
  induction l with
  | nil => rfl
  | cons c rest ih =>
      simp only [List.any_cons, Bool.or_eq_false_iff] at h
      have hc := h.1
      simp only [colBad] at hc
      split at hc
      · exact absurd hc (by simp)
      · split at hc
        · exact absurd hc (by simp)
        · rename_i h1 h2
          simp only [checkCols, if_neg h1, if_neg h2]
          exact ih h.2

theorem checkCols_of_bad {b : Builder} {chk : Bool} {l : List IndexedColumn}
    (h : (l.any (fun c => colBad b chk c.name)) = true) :
    ∃ msg, checkCols b chk l = .error (.lfException .SYNTAX msg) := by
  induction l with
  | nil => simp at h
  | cons c rest ih =>
      by_cases h1 : mapContainsKey b.columns c.name = false
      · exact ⟨b.name ++ " does not have column: " ++ c.name, by
          simp [checkCols, h1]⟩
      · by_cases h2 : (chk && (mapGet b.columns c.name = some .ARRAY_BUFFER ||
            mapGet b.columns c.name = some .OBJECT)) = true
        · exact ⟨b.name ++ " index on non-indexable column: " ++ c.name, by
            simp only [checkCols, if_neg h1]
            rw [if_pos h2]⟩
        · have hcb : colBad b chk c.name = false := by
            simp only [colBad, if_neg h1]
            rw [if_neg h2]
          simp only [List.any_cons, hcb, Bool.false_or] at h
          obtain ⟨msg, hmsg⟩ := ih h
          refine ⟨msg, ?_⟩
          simp only [checkCols, if_neg h1]
          rw [if_neg h2]
          exact hmsg

theorem checkCols_ok_forall {b : Builder} {chk : Bool} : ∀ {l : List IndexedColumn},
    checkCols b chk l = .ok () →
    ∀ c ∈ l, mapContainsKey b.columns c.name = true := by
  intro l
  induction l with
  | nil => intro _ c hc; simp at hc
  | cons c rest ih =>
      intro h d hd
      by_cases h1 : mapContainsKey b.columns c.name = false
      · simp [checkCols, h1] at h
      · by_cases h2 : (chk && (mapGet b.columns c.name = some .ARRAY_BUFFER ||
            mapGet b.columns c.name = some .OBJECT)) = true
        · rw [checkCols, if_neg h1, if_pos h2] at h
          simp at h
        · rw [checkCols, if_neg h1, if_neg h2] at h
          rcases List.mem_cons.mp hd with rfl | hdr
          · simpa using h1
          · exact ih h d hdr

theorem normalizeColumns_of_ok {b : Builder} {carg : ColsArg} {chk : Bool}
    {o : Option Order} {ai : Option Bool}
    (h : (argNames carg).any (colBad b chk) = false) :
    normalizeColumns b carg chk o ai = .ok (normalizeArg carg o ai) := by
  have hany : ((normalizeArg carg o ai).any (fun c => colBad b chk c.name)) = false := by
    rw [← normalizeArg_names carg o ai] at h
    simpa [List.any_map] using h
  simp [normalizeColumns, checkCols_of_ok hany]

theorem normalizeColumns_of_bad {b : Builder} {carg : ColsArg} {chk : Bool}
    {o : Option Order} {ai : Option Bool}
    (h : (argNames carg).any (colBad b chk) = true) :
    ∃ msg, normalizeColumns b carg chk o ai = .error (.lfException .SYNTAX msg) := by
  have hany : ((normalizeArg carg o ai).any (fun c => colBad b chk c.name)) = true := by
    rw [← normalizeArg_names carg o ai] at h
    simpa [List.any_map] using h
  obtain ⟨msg, hmsg⟩ := checkCols_of_bad hany
  exact ⟨msg, by simp [normalizeColumns, hmsg]⟩

theorem colBad_false_eq (b : Builder) (n : String) :
    colBad b false n = !(mapContainsKey b.columns n) := by
  simp only [colBad, Bool.false_and]
  by_cases h : mapContainsKey b.columns n = false <;> simp [h]

theorem checkName_cases (b : Builder) (n : String) :
    checkName b n = .ok () ∨
    ∃ msg, checkName b n = .error (.lfException .SYNTAX msg) := by
  by_cases h : nameOk b n = true
  · exact Or.inl (checkName_of_nameOk h)
  · exact Or.inr (checkName_of_not_nameOk (by simpa using h))

theorem addColumn_syntaxErr (b : Builder) (n : String) (ty : LfType) :
    isSyntaxError (TableBuilder.addColumn b n ty) = !(nameOk b n) := by
  by_cases h : nameOk b n = true
  · simp [TableBuilder.addColumn, checkName_of_nameOk h, isSyntaxError, h]
  · simp only [Bool.not_eq_true] at h
    obtain ⟨msg, hm⟩ := checkName_of_not_nameOk h
    simp [TableBuilder.addColumn, hm, isSyntaxError, h]

theorem addColumn_ok (b : Builder) (n : String) (ty : LfType) :
    exOk (TableBuilder.addColumn b n ty) = nameOk b n := by
  by_cases h : nameOk b n = true
  · simp [TableBuilder.addColumn, checkName_of_nameOk h, exOk, h]
  · simp only [Bool.not_eq_true] at h
    obtain ⟨msg, hm⟩ := checkName_of_not_nameOk h
    simp [TableBuilder.addColumn, hm, exOk, h]

theorem addUnique_syntaxErr (b : Builder) (n : String) (cols : List String) :
    isSyntaxError (TableBuilder.addUnique b n cols) =
      (!(nameOk b n) || cols.any (colBad b true)) := by
  by_cases h : nameOk b n = true
  · by_cases hc : cols.any (colBad b true) = true
    · obtain ⟨msg, hm⟩ := @normalizeColumns_of_bad b (.strs cols) true none none hc
      simp [TableBuilder.addUnique, checkName_of_nameOk h, hm, isSyntaxError, h, hc]
    · simp only [Bool.not_eq_true] at hc
      have hok := @normalizeColumns_of_ok b (.strs cols) true none none hc
      simp [TableBuilder.addUnique, checkName_of_nameOk h, hok, isSyntaxError, h, hc]
  · simp only [Bool.not_eq_true] at h
    obtain ⟨msg, hm⟩ := checkName_of_not_nameOk h
    simp [TableBuilder.addUnique, hm, isSyntaxError, h]

theorem addIndex_syntaxErr (b : Builder) (n : String) (carg : ColsArg)
    (o : Option Order) (u : Option Bool) :
    isSyntaxError (TableBuilder.addIndex b n carg o u) =
      (!(nameOk b n) || (argNames carg).any (colBad b true)) := by
  by_cases h : nameOk b n = true
  · by_cases hc : (argNames carg).any (colBad b true) = true
    · obtain ⟨msg, hm⟩ := @normalizeColumns_of_bad b (carg) true o none hc
      simp [TableBuilder.addIndex, checkName_of_nameOk h, hm, isSyntaxError, h, hc]
    · simp only [Bool.not_eq_true] at hc
      have hok := @normalizeColumns_of_ok b (carg) true o none hc
      simp [TableBuilder.addIndex, checkName_of_nameOk h, hok, isSyntaxError, h, hc]
  · simp only [Bool.not_eq_true] at h
    obtain ⟨msg, hm⟩ := checkName_of_not_nameOk h
    simp [TableBuilder.addIndex, hm, isSyntaxError, h]

theorem addPrimaryKey_syntaxErr (b : Builder) (carg : ColsArg) (ai : Option Bool) :
    isSyntaxError (TableBuilder.addPrimaryKey b carg ai) =
      (!(nameOk b b.pkName) || (argNames carg).any (colBad b true)) := by
  by_cases h : nameOk b b.pkName = true
  · by_cases hc : (argNames carg).any (colBad b true) = true
    · obtain ⟨msg, hm⟩ := @normalizeColumns_of_bad b (carg) true none ai hc
      simp [TableBuilder.addPrimaryKey, checkName_of_nameOk h, hm, isSyntaxError, h, hc]
    · simp only [Bool.not_eq_true] at hc
      have hok := @normalizeColumns_of_ok b (carg) true none ai hc
      simp [TableBuilder.addPrimaryKey, checkName_of_nameOk h, hok, isSyntaxError, h, hc]
  · simp only [Bool.not_eq_true] at h
    obtain ⟨msg, hm⟩ := checkName_of_not_nameOk h
    simp [TableBuilder.addPrimaryKey, hm, isSyntaxError, h]

theorem addNullable_syntaxErr (b : Builder) (cols : List String) :
    isSyntaxError (TableBuilder.addNullable b cols) =
      cols.any (fun c => !(mapContainsKey b.columns c)) := by
  have heq : (fun c => !(mapContainsKey b.columns c)) = colBad b false :=
    funext fun c => (colBad_false_eq b c).symm
  rw [heq]
  by_cases hc : cols.any (colBad b false) = true
  · obtain ⟨msg, hm⟩ := @normalizeColumns_of_bad b (.strs cols) false none none hc
    simp [TableBuilder.addNullable, hm, isSyntaxError, hc]
  · simp only [Bool.not_eq_true] at hc
    have hok := @normalizeColumns_of_ok b (.strs cols) false none none hc
    simp [TableBuilder.addNullable, hok, isSyntaxError, hc]

theorem addNullable_ok (b : Builder) (cols : List String) :
    exOk (TableBuilder.addNullable b cols) =
      !(cols.any (fun c => !(mapContainsKey b.columns c))) := by
  have heq : (fun c => !(mapContainsKey b.columns c)) = colBad b false :=
    funext fun c => (colBad_false_eq b c).symm
  rw [heq]
  by_cases hc : cols.any (colBad b false) = true
  · obtain ⟨msg, hm⟩ := @normalizeColumns_of_bad b (.strs cols) false none none hc
    simp [TableBuilder.addNullable, hm, exOk, hc]
  · simp only [Bool.not_eq_true] at hc
    have hok := @normalizeColumns_of_ok b (.strs cols) false none none hc
    simp [TableBuilder.addNullable, hok, exOk, hc]

theorem toList_eq_nil_iff (s : String) : s.toList = [] ↔ s = "" := by
  constructor
  · intro h
    cases s with
    | mk data =>
        show String.mk data = String.mk []
        exact congrArg String.mk h
  · intro h
    subst h
    rfl

theorem newBuilder_typeErr (n : String) : isTypeErr (newBuilder n) = (n == "") := by
  rcases h : n.toList with _ | ⟨c, rest⟩
  · have hn : n = "" := (toList_eq_nil_iff n).mp h
    subst hn
    rfl
  · have hn : ¬(n = "") := by
      intro hh
      rw [hh] at h
      simp [String.toList] at h
    simp only [newBuilder, toPascal, h]
    rcases checkName_cases
      { name := n, columns := [], uniqueColumns := [], uniqueIndices := [],
        nullable := [], pkName := "pk" ++ ⟨c.toUpper :: rest⟩, indices := [],
        persistIndex := false } n with hc | ⟨msg, hc⟩ <;>
      simp [hc, isTypeErr, hn]

theorem validName_empty : validName "" = false := rfl

theorem newBuilder_syntaxErr (n : String) :
    isSyntaxError (newBuilder n) = (!(n == "") && !(validName n)) := by
  rcases h : n.toList with _ | ⟨c, rest⟩
  · have hn : n = "" := (toList_eq_nil_iff n).mp h
    subst hn
    rfl
  · have hn : ¬(n = "") := by
      intro hh
      rw [hh] at h
      simp [String.toList] at h
    have hno : nameOk
        { name := n, columns := [], uniqueColumns := [], uniqueIndices := [],
          nullable := [], pkName := "pk" ++ ⟨c.toUpper :: rest⟩, indices := [],
          persistIndex := false } n = validName n := by
      simp [nameOk, mapContainsKey, mapGet, setContains]
    simp only [newBuilder, toPascal, h]
    by_cases hv : validName n = true
    · rw [checkName_of_nameOk (by rw [hno]; exact hv)]
      simp [isSyntaxError, hn, hv]
    · simp only [Bool.not_eq_true] at hv
      obtain ⟨msg, hm⟩ := checkName_of_not_nameOk (by rw [hno]; exact hv)
      rw [hm]
      simp [isSyntaxError, hn, hv]

theorem newBuilder_ok (n : String) : exOk (newBuilder n) = validName n := by
  rcases h : n.toList with _ | ⟨c, rest⟩
  · have hn : n = "" := (toList_eq_nil_iff n).mp h
    subst hn
    rfl
  · have hno : nameOk
        { name := n, columns := [], uniqueColumns := [], uniqueIndices := [],
          nullable := [], pkName := "pk" ++ ⟨c.toUpper :: rest⟩, indices := [],
          persistIndex := false } n = validName n := by
      simp [nameOk, mapContainsKey, mapGet, setContains]
    simp only [newBuilder, toPascal, h]
    by_cases hv : validName n = true
    · rw [checkName_of_nameOk (by rw [hno]; exact hv)]
      simp [exOk, hv]
    · simp only [Bool.not_eq_true] at hv
      obtain ⟨msg, hm⟩ := checkName_of_not_nameOk (by rw [hno]; exact hv)
      rw [hm]
      simp [exOk, hv]

theorem newBuilder_ok_elim {tn : String} {b0 : Builder}
    (h : newBuilder tn = .ok b0) :
    b0.name = tn ∧ b0.columns = [] ∧ b0.uniqueColumns = [] ∧
    b0.uniqueIndices = [] ∧ b0.nullable = [] ∧ b0.indices = [] ∧
    b0.persistIndex = false ∧ validName tn = true ∧
    ∃ pas, toPascal tn = .ok pas ∧ b0.pkName = "pk" ++ pas := by
  rcases hp : toPascal tn with e | pas
  · rw [newBuilder, hp] at h
    dsimp only at h
    cases h
  · rw [newBuilder, hp] at h
    dsimp only at h
    rcases hc : checkName
        { name := tn, columns := [], uniqueColumns := [], uniqueIndices := [],
          nullable := [], pkName := "pk" ++ pas, indices := [],
          persistIndex := false } tn with e | u
    · rw [hc] at h
      cases h
    · rw [hc] at h
      cases h
      have hv : validName tn = true := by
        by_contra hv
        simp only [Bool.not_eq_true] at hv
        rw [checkName, if_pos hv] at hc
        cases hc
      exact ⟨rfl, rfl, rfl, rfl, rfl, rfl, rfl, hv, pas, rfl, rfl⟩

/-! ## Effects of single builder calls -/

/-- The call is an `addPrimaryKey` call. -/
def opIsPrimaryKey : Op → Bool
  | .addPrimaryKey _ _ => true
  | _ => false

/-- The call defines column `n` (an `addColumn(n, _)` call). -/
def opAddsColumn (op : Op) (n : String) : Bool :=
  match op with
  | .addColumn m _ => m == n
  | _ => false

/-- The call passes column `n` to `addNullable`. -/
def opAddsNullable (op : Op) (n : String) : Bool :=
  match op with
  | .addNullable cols => cols.contains n
  | _ => false

/-- The call registers `n` in `uniqueIndices_`: `addPrimaryKey` (under the
implicit primary-key name), `addUnique`, or `addIndex` with a truthy
unique flag. -/
def opAddsUnique (pkName : String) (op : Op) (n : String) : Bool :=
  match op with
  | .addPrimaryKey _ _ => n == pkName
  | .addUnique m _ => n == m
  | .addIndex m _ _ u => (n == m) && u.getD false
  | _ => false

/-- The call stores an entry under key `k` in `indices_`. -/
def opSetsIndex (pkName : String) (op : Op) (k : String) : Bool :=
  match op with
  | .addPrimaryKey _ _ => k == pkName
  | .addUnique m _ => k == m
  | .addIndex m _ _ _ => k == m
  | _ => false

theorem checkName_ok_nameOk {b : Builder} {n : String}
    (h : checkName b n = .ok ()) : nameOk b n = true := by
  by_contra hn
  simp only [Bool.not_eq_true] at hn
  obtain ⟨msg, hm⟩ := checkName_of_not_nameOk hn
  rw [h] at hm
  cases hm

theorem normalizeColumns_ok_elim {b : Builder} {carg : ColsArg} {chk : Bool}
    {o : Option Order} {ai : Option Bool} {cols : List IndexedColumn}
    (h : normalizeColumns b carg chk o ai = .ok cols) :
    cols = normalizeArg carg o ai ∧
    checkCols b chk (normalizeArg carg o ai) = .ok () := by
  rcases hcc : checkCols b chk (normalizeArg carg o ai) with e | u
  · rw [normalizeColumns, hcc] at h
    cases h
  · rw [normalizeColumns, hcc] at h
    cases h
    cases u
    exact ⟨rfl, rfl⟩

theorem addColumn_ok_elim {b b' : Builder} {n : String} {ty : LfType}
    (h : TableBuilder.addColumn b n ty = .ok b') :
    nameOk b n = true ∧ b' = { b with columns := mapSet b.columns n ty } := by
  rcases hc : checkName b n with e | u
  · rw [TableBuilder.addColumn, hc] at h
    cases h
  · rw [TableBuilder.addColumn, hc] at h
    cases h
    cases u
    exact ⟨checkName_ok_nameOk hc, rfl⟩

theorem addPrimaryKey_ok_elim {b b' : Builder} {carg : ColsArg} {ai : Option Bool}
    (h : TableBuilder.addPrimaryKey b carg ai = .ok b') :
    nameOk b b.pkName = true ∧
    checkCols b true (normalizeArg carg none ai) = .ok () ∧
    b' = { b with
           uniqueColumns := (normalizeArg carg none ai).foldl
             (fun s c => setAdd s c.name) b.uniqueColumns,
           uniqueIndices := setAdd b.uniqueIndices b.pkName,
           indices := mapSet b.indices b.pkName (normalizeArg carg none ai) } := by
  rcases hc : checkName b b.pkName with e | u
  · rw [TableBuilder.addPrimaryKey, hc] at h
    cases h
  · rw [TableBuilder.addPrimaryKey, hc] at h
    rcases hn : normalizeColumns b carg true none ai with e | cols
    · rw [hn] at h
      cases h
    · rw [hn] at h
      cases h
      cases u
      obtain ⟨rfl, hcc⟩ := normalizeColumns_ok_elim hn
      exact ⟨checkName_ok_nameOk hc, hcc, rfl⟩

theorem addForeignKey_ok_elim {b b' : Builder} {n lc rt rc : String}
    {c : Option Bool} (h : TableBuilder.addForeignKey b n lc rt rc c = .ok b') :
    b' = b := by
  cases h
  rfl

theorem addUnique_ok_elim {b b' : Builder} {n : String} {cols : List String}
    (h : TableBuilder.addUnique b n cols = .ok b') :
    nameOk b n = true ∧
    checkCols b true (normalizeArg (.strs cols) none none) = .ok () ∧
    b' = { b with
           indices := mapSet b.indices n (normalizeArg (.strs cols) none none),
           uniqueIndices := setAdd b.uniqueIndices n } := by
  rcases hc : checkName b n with e | u
  · rw [TableBuilder.addUnique, hc] at h
    cases h
  · rw [TableBuilder.addUnique, hc] at h
    rcases hn : normalizeColumns b (.strs cols) true none none with e | ncols
    · rw [hn] at h
      cases h
    · rw [hn] at h
      cases h
      cases u
      obtain ⟨rfl, hcc⟩ := normalizeColumns_ok_elim hn
      exact ⟨checkName_ok_nameOk hc, hcc, rfl⟩

theorem addNullable_ok_elim {b b' : Builder} {cols : List String}
    (h : TableBuilder.addNullable b cols = .ok b') :
    checkCols b false (normalizeArg (.strs cols) none none) = .ok () ∧
    b' = { b with
           nullable := (normalizeArg (.strs cols) none none).foldl
             (fun s c => setAdd s c.name) b.nullable } := by
  rcases hn : normalizeColumns b (.strs cols) false none none with e | ncols
  · rw [TableBuilder.addNullable, hn] at h
    cases h
  · rw [TableBuilder.addNullable, hn] at h
    cases h
    obtain ⟨rfl, hcc⟩ := normalizeColumns_ok_elim hn
    exact ⟨hcc, rfl⟩

theorem addIndex_ok_elim {b b' : Builder} {n : String} {carg : ColsArg}
    {o : Option Order} {u : Option Bool}
    (h : TableBuilder.addIndex b n carg o u = .ok b') :
    nameOk b n = true ∧
    checkCols b true (normalizeArg carg o none) = .ok () ∧
    b' = { b with
           uniqueIndices :=
             if u.getD false then setAdd b.uniqueIndices n else b.uniqueIndices,
           indices := mapSet b.indices n (normalizeArg carg o none) } := by
  rcases hc : checkName b n with e | uu
  · rw [TableBuilder.addIndex, hc] at h
    cases h
  · rw [TableBuilder.addIndex, hc] at h
    rcases hn : normalizeColumns b carg true o none with e | ncols
    · rw [hn] at h
      cases h
    · rw [hn] at h
      cases h
      cases uu
      obtain ⟨rfl, hcc⟩ := normalizeColumns_ok_elim hn
      exact ⟨checkName_ok_nameOk hc, hcc, rfl⟩

theorem nameOk_parts {b : Builder} {n : String} (h : nameOk b n = true) :
    validName n = true ∧ mapContainsKey b.columns n = false ∧
    mapContainsKey b.indices n = false ∧ setContains b.uniqueIndices n = false := by
  simp only [nameOk, Bool.and_eq_true, Bool.not_eq_true', Bool.or_eq_false_iff] at h
  exact ⟨h.1, h.2.1.1, h.2.1.2, h.2.2⟩

theorem applyOp_fields {b b' : Builder} {op : Op} (h : applyOp b op = .ok b') :
    b'.name = b.name ∧ b'.pkName = b.pkName := by
  cases op with
  | addColumn n ty =>
      obtain ⟨-, rfl⟩ := addColumn_ok_elim h
      exact ⟨rfl, rfl⟩
  | addPrimaryKey carg ai =>
      obtain ⟨-, -, rfl⟩ := addPrimaryKey_ok_elim h
      exact ⟨rfl, rfl⟩
  | addForeignKey n lc rt rc c =>
      cases h
      exact ⟨rfl, rfl⟩
  | addUnique n cols =>
      obtain ⟨-, -, rfl⟩ := addUnique_ok_elim h
      exact ⟨rfl, rfl⟩
  | addNullable cols =>
      obtain ⟨-, rfl⟩ := addNullable_ok_elim h
      exact ⟨rfl, rfl⟩
  | addIndex n carg o u =>
      obtain ⟨-, -, rfl⟩ := addIndex_ok_elim h
      exact ⟨rfl, rfl⟩
  | persistIndex v =>
      cases h
      exact ⟨rfl, rfl⟩

theorem applyOp_uniqueIndices_mem {b b' : Builder} {op : Op}
    (h : applyOp b op = .ok b') (n : String) :
    n ∈ b'.uniqueIndices ↔
      (n ∈ b.uniqueIndices ∨ opAddsUnique b.pkName op n = true) := by
  cases op with
  | addColumn m ty =>
      obtain ⟨-, rfl⟩ := addColumn_ok_elim h
      simp [opAddsUnique]
  | addPrimaryKey carg ai =>
      obtain ⟨-, -, rfl⟩ := addPrimaryKey_ok_elim h
      simp [opAddsUnique, mem_setAdd]
  | addForeignKey m lc rt rc c =>
      cases h
      simp [opAddsUnique]
  | addUnique m cols =>
      obtain ⟨-, -, rfl⟩ := addUnique_ok_elim h
      simp [opAddsUnique, mem_setAdd]
  | addNullable cols =>
      obtain ⟨-, rfl⟩ := addNullable_ok_elim h
      simp [opAddsUnique]
  | addIndex m carg o u =>
      obtain ⟨-, -, rfl⟩ := addIndex_ok_elim h
      by_cases hu : u.getD false = true
      · simp [opAddsUnique, hu, mem_setAdd]
      · simp only [Bool.not_eq_true] at hu
        simp [opAddsUnique, hu, mem_setAdd]
  | persistIndex v =>
      cases h
      simp [opAddsUnique, TableBuilder.setPersistIndex]

theorem applyOp_columnsKey {b b' : Builder} {op : Op}
    (h : applyOp b op = .ok b') (n : String) :
    mapContainsKey b'.columns n =
      (mapContainsKey b.columns n || opAddsColumn op n) := by
  cases op with
  | addColumn m ty =>
      obtain ⟨hok, rfl⟩ := addColumn_ok_elim h
      by_cases hm : m = n
      · subst hm
        simp [mapContainsKey, mapGet_set_self, opAddsColumn]
      · have hne : n ≠ m := fun hh => hm hh.symm
        simp [mapContainsKey, mapGet_set_ne _ _ _ _ hne, opAddsColumn, hm]
  | addPrimaryKey carg ai =>
      obtain ⟨-, -, rfl⟩ := addPrimaryKey_ok_elim h
      simp [opAddsColumn]
  | addForeignKey m lc rt rc c =>
      cases h
      simp [opAddsColumn]
  | addUnique m cols =>
      obtain ⟨-, -, rfl⟩ := addUnique_ok_elim h
      simp [opAddsColumn]
  | addNullable cols =>
      obtain ⟨-, rfl⟩ := addNullable_ok_elim h
      simp [opAddsColumn]
  | addIndex m carg o u =>
      obtain ⟨-, -, rfl⟩ := addIndex_ok_elim h
      simp [opAddsColumn]
  | persistIndex v =>
      cases h
      simp [opAddsColumn, TableBuilder.setPersistIndex]

theorem applyOp_nullable_mem {b b' : Builder} {op : Op}
    (h : applyOp b op = .ok b') (n : String) :
    n ∈ b'.nullable ↔ (n ∈ b.nullable ∨ opAddsNullable op n = true) := by
  cases op with
  | addColumn m ty =>
      obtain ⟨-, rfl⟩ := addColumn_ok_elim h
      simp [opAddsNullable]
  | addPrimaryKey carg ai =>
      obtain ⟨-, -, rfl⟩ := addPrimaryKey_ok_elim h
      simp [opAddsNullable]
  | addForeignKey m lc rt rc c =>
      cases h
      simp [opAddsNullable]
  | addUnique m cols =>
      obtain ⟨-, -, rfl⟩ := addUnique_ok_elim h
      simp [opAddsNullable]
  | addNullable cols =>
      obtain ⟨-, rfl⟩ := addNullable_ok_elim h
      have hiff : (∃ c ∈ normalizeArg (.strs cols) none none,
          IndexedColumn.name c = n) ↔ n ∈ cols := by
        constructor
        · rintro ⟨c, hc, rfl⟩
          obtain ⟨s, hs, rfl⟩ := List.mem_map.mp hc
          exact hs
        · intro hn
          exact ⟨⟨n, .ASC, false⟩, List.mem_map.mpr ⟨n, hn, rfl⟩, rfl⟩
      have hcont : (cols.contains n = true) ↔ n ∈ cols := by simp
      rw [mem_foldl_setAdd]
      constructor
      · rintro (hmem | hex)
        · exact Or.inl hmem
        · refine Or.inr ?_
          show cols.contains n = true
          exact hcont.mpr (hiff.mp hex)
      · rintro (hmem | hc)
        · exact Or.inl hmem
        · refine Or.inr (hiff.mpr (hcont.mp ?_))
          exact hc
  | addIndex m carg o u =>
      obtain ⟨-, -, rfl⟩ := addIndex_ok_elim h
      simp [opAddsNullable]
  | persistIndex v =>
      cases h
      simp [opAddsNullable, TableBuilder.setPersistIndex]

theorem applyOp_indicesKey {b b' : Builder} {op : Op}
    (h : applyOp b op = .ok b') (k : String) :
    mapContainsKey b'.indices k =
      (mapContainsKey b.indices k || opSetsIndex b.pkName op k) := by
  cases op with
  | addColumn m ty =>
      obtain ⟨-, rfl⟩ := addColumn_ok_elim h
      simp [opSetsIndex]
  | addPrimaryKey carg ai =>
      obtain ⟨-, -, rfl⟩ := addPrimaryKey_ok_elim h
      by_cases hm : b.pkName = k
      · subst hm
        simp [mapContainsKey, mapGet_set_self, opSetsIndex]
      · have hne : k ≠ b.pkName := fun hh => hm hh.symm
        simp [mapContainsKey, mapGet_set_ne _ _ _ _ hne, opSetsIndex, hne]
  | addForeignKey m lc rt rc c =>
      cases h
      simp [opSetsIndex]
  | addUnique m cols =>
      obtain ⟨-, -, rfl⟩ := addUnique_ok_elim h
      by_cases hm : m = k
      · subst hm
        simp [mapContainsKey, mapGet_set_self, opSetsIndex]
      · have hne : k ≠ m := fun hh => hm hh.symm
        simp [mapContainsKey, mapGet_set_ne _ _ _ _ hne, opSetsIndex, hne]
  | addNullable cols =>
      obtain ⟨-, rfl⟩ := addNullable_ok_elim h
      simp [opSetsIndex]
  | addIndex m carg o u =>
      obtain ⟨-, -, rfl⟩ := addIndex_ok_elim h
      by_cases hm : m = k
      · subst hm
        simp [mapContainsKey, mapGet_set_self, opSetsIndex]
      · have hne : k ≠ m := fun hh => hm hh.symm
        simp [mapContainsKey, mapGet_set_ne _ _ _ _ hne, opSetsIndex, hne]
  | persistIndex v =>
      cases h
      simp [opSetsIndex, TableBuilder.setPersistIndex]

theorem applyOp_indices_preserve {b b' : Builder} {op : Op}
    (h : applyOp b op = .ok b') (k : String)
    (hk : mapContainsKey b.indices k = true) :
    mapGet b'.indices k = mapGet b.indices k := by
  cases op with
  | addColumn m ty =>
      obtain ⟨-, rfl⟩ := addColumn_ok_elim h
      rfl
  | addPrimaryKey carg ai =>
      obtain ⟨hok, -, rfl⟩ := addPrimaryKey_ok_elim h
      have hne : k ≠ b.pkName := by
        intro hh
        rw [hh] at hk
        rw [(nameOk_parts hok).2.2.1] at hk
        cases hk
      exact mapGet_set_ne _ _ _ _ hne
  | addForeignKey m lc rt rc c =>
      cases h
      rfl
  | addUnique m cols =>
      obtain ⟨hok, -, rfl⟩ := addUnique_ok_elim h
      have hne : k ≠ m := by
        intro hh
        rw [hh] at hk
        rw [(nameOk_parts hok).2.2.1] at hk
        cases hk
      exact mapGet_set_ne _ _ _ _ hne
  | addNullable cols =>
      obtain ⟨-, rfl⟩ := addNullable_ok_elim h
      rfl
  | addIndex m carg o u =>
      obtain ⟨hok, -, rfl⟩ := addIndex_ok_elim h
      have hne : k ≠ m := by
        intro hh
        rw [hh] at hk
        rw [(nameOk_parts hok).2.2.1] at hk
        cases hk
      exact mapGet_set_ne _ _ _ _ hne
  | persistIndex v =>
      cases h
      rfl

theorem applyOp_columns_preserve {b b' : Builder} {op : Op}
    (h : applyOp b op = .ok b') (n : String)
    (hn : mapContainsKey b.columns n = true) :
    mapGet b'.columns n = mapGet b.columns n := by
  cases op with
  | addColumn m ty =>
      obtain ⟨hok, rfl⟩ := addColumn_ok_elim h
      have hne : n ≠ m := by
        intro hh
        rw [hh] at hn
        rw [(nameOk_parts hok).2.1] at hn
        cases hn
      exact mapGet_set_ne _ _ _ _ hne
  | addPrimaryKey carg ai =>
      obtain ⟨-, -, rfl⟩ := addPrimaryKey_ok_elim h
      rfl
  | addForeignKey m lc rt rc c =>
      cases h
      rfl
  | addUnique m cols =>
      obtain ⟨-, -, rfl⟩ := addUnique_ok_elim h
      rfl
  | addNullable cols =>
      obtain ⟨-, rfl⟩ := addNullable_ok_elim h
      rfl
  | addIndex m carg o u =>
      obtain ⟨-, -, rfl⟩ := addIndex_ok_elim h
      rfl
  | persistIndex v =>
      cases h
      rfl

theorem applyOp_uniqueColumns_mono {b b' : Builder} {op : Op}
    (h : applyOp b op = .ok b') (n : String) (hn : n ∈ b.uniqueColumns) :
    n ∈ b'.uniqueColumns := by
  cases op with
  | addColumn m ty =>
      obtain ⟨-, rfl⟩ := addColumn_ok_elim h
      exact hn
  | addPrimaryKey carg ai =>
      obtain ⟨-, -, rfl⟩ := addPrimaryKey_ok_elim h
      exact (mem_foldl_setAdd _ _ _ _).mpr (Or.inl hn)
  | addForeignKey m lc rt rc c =>
      cases h
      exact hn
  | addUnique m cols =>
      obtain ⟨-, -, rfl⟩ := addUnique_ok_elim h
      exact hn
  | addNullable cols =>
      obtain ⟨-, rfl⟩ := addNullable_ok_elim h
      exact hn
  | addIndex m carg o u =>
      obtain ⟨-, -, rfl⟩ := addIndex_ok_elim h
      exact hn
  | persistIndex v =>
      cases h
      exact hn

/-- The structural invariant every reachable builder satisfies: duplicate-free
column and index keys, and `checkName_`-validated names. -/
structure BInv (b : Builder) : Prop where
  colsNodup : (b.columns.map Prod.fst).Nodup
  idxNodup : (b.indices.map Prod.fst).Nodup
  idxValid : ∀ k ∈ b.indices.map Prod.fst, validName k = true
  nameValid : validName b.name = true

theorem mapSet_keys_valid {α : Type} {m : List (String × α)} {k : String} {v : α}
    (hall : ∀ j ∈ m.map Prod.fst, validName j = true) (hk : validName k = true) :
    ∀ j ∈ (mapSet m k v).map Prod.fst, validName j = true := by
  intro j hj
  rw [mapSet_map_fst] at hj
  by_cases hc : mapContainsKey m k
  · rw [if_pos hc] at hj
    exact hall j hj
  · rw [if_neg hc] at hj
    rcases List.mem_append.mp hj with hj | hj
    · exact hall j hj
    · simp only [List.mem_singleton] at hj
      exact hj ▸ hk

theorem applyOp_inv {b b' : Builder} {op : Op} (h : applyOp b op = .ok b')
    (inv : BInv b) : BInv b' := by
  cases op with
  | addColumn m ty =>
      obtain ⟨hok, rfl⟩ := addColumn_ok_elim h
      exact ⟨mapSet_nodup _ _ _ inv.colsNodup, inv.idxNodup, inv.idxValid,
        inv.nameValid⟩
  | addPrimaryKey carg ai =>
      obtain ⟨hok, -, rfl⟩ := addPrimaryKey_ok_elim h
      exact ⟨inv.colsNodup, mapSet_nodup _ _ _ inv.idxNodup,
        mapSet_keys_valid inv.idxValid (nameOk_parts hok).1, inv.nameValid⟩
  | addForeignKey m lc rt rc c =>
      cases h
      exact inv
  | addUnique m cols =>
      obtain ⟨hok, -, rfl⟩ := addUnique_ok_elim h
      exact ⟨inv.colsNodup, mapSet_nodup _ _ _ inv.idxNodup,
        mapSet_keys_valid inv.idxValid (nameOk_parts hok).1, inv.nameValid⟩
  | addNullable cols =>
      obtain ⟨-, rfl⟩ := addNullable_ok_elim h
      exact ⟨inv.colsNodup, inv.idxNodup, inv.idxValid, inv.nameValid⟩
  | addIndex m carg o u =>
      obtain ⟨hok, -, rfl⟩ := addIndex_ok_elim h
      exact ⟨inv.colsNodup, mapSet_nodup _ _ _ inv.idxNodup,
        mapSet_keys_valid inv.idxValid (nameOk_parts hok).1, inv.nameValid⟩
  | persistIndex v =>
      cases h
      exact ⟨inv.colsNodup, inv.idxNodup, inv.idxValid, inv.nameValid⟩

theorem applyOps_cons_elim {b b' : Builder} {op : Op} {rest : List Op}
    (h : applyOps b (op :: rest) = .ok b') :
    ∃ b1, applyOp b op = .ok b1 ∧ applyOps b1 rest = .ok b' := by
  rcases h1 : applyOp b op with e | b1
  · rw [applyOps, h1] at h
    cases h
  · rw [applyOps, h1] at h
    exact ⟨b1, rfl, h⟩

theorem applyOps_fields {b b' : Builder} : ∀ {ops : List Op},
    applyOps b ops = .ok b' → b'.name = b.name ∧ b'.pkName = b.pkName := by
  intro ops
  induction ops generalizing b with
  | nil => intro h; cases h; exact ⟨rfl, rfl⟩
  | cons op rest ih =>
      intro h
      obtain ⟨b1, h1, h2⟩ := applyOps_cons_elim h
      obtain ⟨hn1, hp1⟩ := applyOp_fields h1
      obtain ⟨hn2, hp2⟩ := ih h2
      exact ⟨hn2.trans hn1, hp2.trans hp1⟩

theorem applyOps_inv {b b' : Builder} : ∀ {ops : List Op},
    applyOps b ops = .ok b' → BInv b → BInv b' := by
  intro ops
  induction ops generalizing b with
  | nil => intro h inv; cases h; exact inv
  | cons op rest ih =>
      intro h inv
      obtain ⟨b1, h1, h2⟩ := applyOps_cons_elim h
      exact ih h2 (applyOp_inv h1 inv)

theorem applyOps_uniqueIndices_mem {b b' : Builder} : ∀ {ops : List Op},
    applyOps b ops = .ok b' → ∀ n,
    (n ∈ b'.uniqueIndices ↔
      (n ∈ b.uniqueIndices ∨
        (ops.any (fun op => opAddsUnique b.pkName op n)) = true)) := by
  intro ops
  induction ops generalizing b with
  | nil =>
      intro h n
      cases h
      simp
  | cons op rest ih =>
      intro h n
      obtain ⟨b1, h1, h2⟩ := applyOps_cons_elim h
      have hpk : b1.pkName = b.pkName := (applyOp_fields h1).2
      rw [List.any_cons]
      constructor
      · intro hmem
        rcases (ih h2 n).mp hmem with hmem1 | hrest
        · rcases (applyOp_uniqueIndices_mem h1 n).mp hmem1 with hmem0 | hop
          · exact Or.inl hmem0
          · exact Or.inr (by simp [hop])
        · rw [hpk] at hrest
          exact Or.inr (by simp [hrest])
      · rintro (hmem0 | hor)
        · exact (ih h2 n).mpr (Or.inl
            ((applyOp_uniqueIndices_mem h1 n).mpr (Or.inl hmem0)))
        · rcases Bool.or_eq_true_iff.mp hor with hop | hrest
          · exact (ih h2 n).mpr (Or.inl
              ((applyOp_uniqueIndices_mem h1 n).mpr (Or.inr hop)))
          · exact (ih h2 n).mpr (Or.inr (by rw [hpk]; exact hrest))

theorem applyOps_columnsKey {b b' : Builder} : ∀ {ops : List Op},
    applyOps b ops = .ok b' → ∀ n,
    mapContainsKey b'.columns n =
      (mapContainsKey b.columns n || ops.any (fun op => opAddsColumn op n)) := by
  intro ops
  induction ops generalizing b with
  | nil =>
      intro h n
      cases h
      simp
  | cons op rest ih =>
      intro h n
      obtain ⟨b1, h1, h2⟩ := applyOps_cons_elim h
      rw [ih h2 n, applyOp_columnsKey h1 n, List.any_cons]
      cases mapContainsKey b.columns n <;> cases opAddsColumn op n <;> simp

theorem applyOps_nullable_mem {b b' : Builder} : ∀ {ops : List Op},
    applyOps b ops = .ok b' → ∀ n,
    (n ∈ b'.nullable ↔
      (n ∈ b.nullable ∨ (ops.any (fun op => opAddsNullable op n)) = true)) := by
  intro ops
  induction ops generalizing b with
  | nil =>
      intro h n
      cases h
      simp
  | cons op rest ih =>
      intro h n
      obtain ⟨b1, h1, h2⟩ := applyOps_cons_elim h
      rw [List.any_cons]
      constructor
      · intro hmem
        rcases (ih h2 n).mp hmem with hmem1 | hrest
        · rcases (applyOp_nullable_mem h1 n).mp hmem1 with hmem0 | hop
          · exact Or.inl hmem0
          · exact Or.inr (by simp [hop])
        · exact Or.inr (by simp [hrest])
      · rintro (hmem0 | hor)
        · exact (ih h2 n).mpr (Or.inl
            ((applyOp_nullable_mem h1 n).mpr (Or.inl hmem0)))
        · rcases Bool.or_eq_true_iff.mp hor with hop | hrest
          · exact (ih h2 n).mpr (Or.inl
              ((applyOp_nullable_mem h1 n).mpr (Or.inr hop)))
          · exact (ih h2 n).mpr (Or.inr hrest)

theorem applyOps_indicesKey {b b' : Builder} : ∀ {ops : List Op},
    applyOps b ops = .ok b' → ∀ k,
    mapContainsKey b'.indices k =
      (mapContainsKey b.indices k ||
        ops.any (fun op => opSetsIndex b.pkName op k)) := by
  intro ops
  induction ops generalizing b with
  | nil =>
      intro h k
      cases h
      simp
  | cons op rest ih =>
      intro h k
      obtain ⟨b1, h1, h2⟩ := applyOps_cons_elim h
      have hpk : b1.pkName = b.pkName := (applyOp_fields h1).2
      rw [ih h2 k, applyOp_indicesKey h1 k, List.any_cons, hpk]
      cases mapContainsKey b.indices k <;>
        cases opSetsIndex b.pkName op k <;> simp

theorem applyOps_indices_preserve {b b' : Builder} : ∀ {ops : List Op},
    applyOps b ops = .ok b' → ∀ k, mapContainsKey b.indices k = true →
    mapGet b'.indices k = mapGet b.indices k := by
  intro ops
  induction ops generalizing b with
  | nil =>
      intro h k _
      cases h
      rfl
  | cons op rest ih =>
      intro h k hk
      obtain ⟨b1, h1, h2⟩ := applyOps_cons_elim h
      have hk1 : mapContainsKey b1.indices k = true := by
        rw [applyOp_indicesKey h1 k, hk]
        rfl
      rw [ih h2 k hk1, applyOp_indices_preserve h1 k hk]

theorem applyOps_columns_preserve {b b' : Builder} : ∀ {ops : List Op},
    applyOps b ops = .ok b' → ∀ n, mapContainsKey b.columns n = true →
    mapGet b'.columns n = mapGet b.columns n := by
  intro ops
  induction ops generalizing b with
  | nil =>
      intro h n _
      cases h
      rfl
  | cons op rest ih =>
      intro h n hn
      obtain ⟨b1, h1, h2⟩ := applyOps_cons_elim h
      have hn1 : mapContainsKey b1.columns n = true := by
        rw [applyOp_columnsKey h1 n, hn]
        rfl
      rw [ih h2 n hn1, applyOp_columns_preserve h1 n hn]

theorem applyOps_uniqueColumns_mono {b b' : Builder} : ∀ {ops : List Op},
    applyOps b ops = .ok b' → ∀ n, n ∈ b.uniqueColumns →
    n ∈ b'.uniqueColumns := by
  intro ops
  induction ops generalizing b with
  | nil =>
      intro h n hn
      cases h
      exact hn
  | cons op rest ih =>
      intro h n hn
      obtain ⟨b1, h1, h2⟩ := applyOps_cons_elim h
      exact ih h2 n (applyOp_uniqueColumns_mono h1 n hn)

theorem buildFrom_ok_elim {tn : String} {ops : List Op} {b : Builder}
    (h : buildFrom tn ops = .ok b) :
    ∃ b0, newBuilder tn = .ok b0 ∧ applyOps b0 ops = .ok b := by
  rcases h0 : newBuilder tn with e | b0
  · rw [buildFrom, h0] at h
    cases h
  · rw [buildFrom, h0] at h
    exact ⟨b0, rfl, h⟩

/-! ## Normalized index names and the functionMap -/

theorem validName_no_hash {s : String} (h : validName s = true) :
    ('#' ∈ s.toList) → False := by
  intro hmem
  unfold validName at h
  rcases hl : s.toList with _ | ⟨c, rest⟩
  · rw [hl] at hmem
    cases hmem
  · rw [hl] at h hmem
    dsimp only at h
    simp only [Bool.and_eq_true, List.all_eq_true] at h
    rcases List.mem_cons.mp hmem with rfl | hmem
    · simp at h
    · have := h.2 '#' hmem
      simp at this

theorem normName_inj {tn k1 k2 : String}
    (h : tn ++ "." ++ k1 = tn ++ "." ++ k2) : k1 = k2 := by
  have hd := congrArg String.data h
  simp only [String.data_append] at hd
  have := List.append_cancel_left hd
  cases k1
  cases k2
  exact congrArg String.mk this

theorem containsChar_normName (tn k : String) (h1 : validName tn = true)
    (h2 : validName k = true) : containsChar (tn ++ "." ++ k) '#' = false := by
  by_contra hc
  simp only [Bool.not_eq_false] at hc
  have hmem : '#' ∈ (tn ++ "." ++ k).toList := by
    simpa [containsChar] using hc
  have hdata : (tn ++ "." ++ k).toList = tn.toList ++ '.' :: k.toList := by
    show (tn ++ "." ++ k).data = tn.data ++ '.' :: k.data
    simp [String.data_append]
  rw [hdata] at hmem
  rcases List.mem_append.mp hmem with hmem | hmem
  · exact validName_no_hash h1 hmem
  · rcases List.mem_cons.mp hmem with hdot | hmem
    · cases hdot
    · exact validName_no_hash h2 hmem

/-- One step of the `functionMap` fold of `generateRowClass_`, over the raw
`indices_` entries. -/
def fmStep (b : Builder) (fm : List (String × (Payload → JsVal)))
    (p : String × List IndexedColumn) : List (String × (Payload → JsVal)) :=
  match p.2 with
  | [] => fm
  | c0 :: _ => mapSet fm (b.name ++ "." ++ p.1) (indexKeyFn b.columns c0.name)

theorem functionMapOf_eq (b : Builder) :
    functionMapOf b = b.indices.foldl (fmStep b) [] := by
  unfold functionMapOf tableIndices
  rw [List.foldl_map]
  rfl

theorem foldFM_get_skip (b : Builder) (l : List (String × List IndexedColumn))
    (s : String) (fm0 : List (String × (Payload → JsVal)))
    (hl : ∀ p ∈ l, b.name ++ "." ++ p.1 ≠ s) :
    mapGet (l.foldl (fmStep b) fm0) s = mapGet fm0 s := by
  induction l generalizing fm0 with
  | nil => rfl
  | cons p rest ih =>
      rw [List.foldl_cons]
      rw [ih _ (fun q hq => hl q (List.mem_cons_of_mem _ hq))]
      rcases hp : p.2 with _ | ⟨c0, crest⟩
      · simp [fmStep, hp]
      · simp only [fmStep, hp]
        exact mapGet_set_ne _ _ _ _ (fun hh => hl p (List.mem_cons_self _ _) hh.symm)

theorem foldFM_get_mem (b : Builder) :
    ∀ (l : List (String × List IndexedColumn)) (k : String)
      (c0 : IndexedColumn) (rest : List IndexedColumn)
      (fm0 : List (String × (Payload → JsVal))),
      (l.map Prod.fst).Nodup → (k, c0 :: rest) ∈ l →
      mapGet (l.foldl (fmStep b) fm0) (b.name ++ "." ++ k) =
        some (indexKeyFn b.columns c0.name) := by
  intro l
  induction l with
  | nil => intro k c0 rest fm0 _ hmem; simp at hmem
  | cons p tail ih =>
      intro k c0 rest fm0 hnd hmem
      obtain ⟨pk, pcols⟩ := p
      simp only [List.map_cons, List.nodup_cons] at hnd
      rcases List.mem_cons.mp hmem with heq | hmem
      · injection heq with h1 h2
        subst h1
        subst h2
        rw [List.foldl_cons]
        have hskip : ∀ q ∈ tail, b.name ++ "." ++ q.1 ≠ b.name ++ "." ++ k := by
          intro q hq hh
          have hq1 : q.1 = k := normName_inj hh
          exact hnd.1 (hq1 ▸ List.mem_map.mpr ⟨q, hq, rfl⟩)
        rw [foldFM_get_skip b tail _ _ hskip]
        show mapGet (fmStep b fm0 (k, c0 :: rest)) (b.name ++ "." ++ k) = _
        simp [fmStep, mapGet_set_self]
      · rw [List.foldl_cons]
        exact ih k c0 rest _ hnd.2 hmem

theorem buildFrom_inv {tn : String} {ops : List Op} {b : Builder}
    (h : buildFrom tn ops = .ok b) : BInv b ∧ b.name = tn := by
  obtain ⟨b0, h0, hops⟩ := buildFrom_ok_elim h
  obtain ⟨hname, hcols, -, -, -, hidx, -, hvalid, -⟩ := newBuilder_ok_elim h0
  have inv0 : BInv b0 := by
    refine ⟨?_, ?_, ?_, ?_⟩
    · rw [hcols]; exact List.nodup_nil
    · rw [hidx]; exact List.nodup_nil
    · rw [hidx]; intro k hk; simp at hk
    · rw [hname]; exact hvalid
  exact ⟨applyOps_inv hops inv0, (applyOps_fields hops).1.trans hname⟩

theorem buildFrom_uniqueIndices_mem {tn : String} {ops : List Op} {b : Builder}
    (h : buildFrom tn ops = .ok b) (n : String) :
    (n ∈ b.uniqueIndices ↔
      (ops.any (fun op => opAddsUnique b.pkName op n)) = true) := by
  obtain ⟨b0, h0, hops⟩ := buildFrom_ok_elim h
  obtain ⟨-, -, -, hUI, -, -, -, -, -⟩ := newBuilder_ok_elim h0
  have hpk : b.pkName = b0.pkName := (applyOps_fields hops).2
  have e := applyOps_uniqueIndices_mem hops n
  rw [hpk]
  constructor
  · intro hm
    rcases e.mp hm with h' | h'
    · rw [hUI] at h'
      cases h'
    · exact h'
  · intro hm
    exact e.mpr (Or.inr hm)

theorem buildFrom_columnsKey {tn : String} {ops : List Op} {b : Builder}
    (h : buildFrom tn ops = .ok b) (n : String) :
    mapContainsKey b.columns n = ops.any (fun op => opAddsColumn op n) := by
  obtain ⟨b0, h0, hops⟩ := buildFrom_ok_elim h
  obtain ⟨-, hc0, -, -, -, -, -, -, -⟩ := newBuilder_ok_elim h0
  rw [applyOps_columnsKey hops n, hc0]
  rfl

theorem buildFrom_nullable_mem {tn : String} {ops : List Op} {b : Builder}
    (h : buildFrom tn ops = .ok b) (n : String) :
    (n ∈ b.nullable ↔ (ops.any (fun op => opAddsNullable op n)) = true) := by
  obtain ⟨b0, h0, hops⟩ := buildFrom_ok_elim h
  obtain ⟨-, -, -, -, hnul, -, -, -, -⟩ := newBuilder_ok_elim h0
  have e := applyOps_nullable_mem hops n
  constructor
  · intro hm
    rcases e.mp hm with h' | h'
    · rw [hnul] at h'
      cases h'
    · exact h'
  · intro hm
    exact e.mpr (Or.inr hm)

theorem buildFrom_indicesKey {tn : String} {ops : List Op} {b : Builder}
    (h : buildFrom tn ops = .ok b) (k : String) :
    mapContainsKey b.indices k =
      ops.any (fun op => opSetsIndex b.pkName op k) := by
  obtain ⟨b0, h0, hops⟩ := buildFrom_ok_elim h
  obtain ⟨-, -, -, -, -, hidx, -, -, -⟩ := newBuilder_ok_elim h0
  have hpk : b.pkName = b0.pkName := (applyOps_fields hops).2
  rw [hpk, applyOps_indicesKey hops k, hidx]
  rfl

/-! ## Bridges between builder state and the generated schema objects -/

theorem bool_eq_of_iff {x y : Bool} (h : x = true ↔ y = true) : x = y := by
  cases x <;> cases y <;> simp_all

theorem tableCols_names (b : Builder) :
    (tableCols b).map BaseColumn.name = b.columns.map Prod.fst := by
  unfold tableCols
  rw [List.map_map]
  rfl

theorem tableUnique_any (b : Builder) (n : String) :
    ((tableUnique b).any (fun i => i.name == n)) = true ↔ n ∈ b.uniqueIndices := by
  unfold tableUnique
  simp only [List.any_eq_true, List.mem_map, beq_iff_eq]
  constructor
  · rintro ⟨i, ⟨a, ha, rfl⟩, hn⟩
    exact hn ▸ ha
  · intro h
    exact ⟨⟨b.name, n, true, (mapGet b.indices n).getD []⟩, ⟨n, h, rfl⟩, rfl⟩

theorem tableNotNullable_any (b : Builder) (n : String) :
    ((tableNotNullable b).any (fun c => c.name == n)) = true ↔
      (mapContainsKey b.columns n = true ∧ setContains b.nullable n = false) := by
  constructor
  · intro h
    simp only [tableNotNullable, List.any_eq_true, List.mem_filter,
      beq_iff_eq] at h
    obtain ⟨c, ⟨hc, hns⟩, hname⟩ := h
    subst hname
    constructor
    · simp only [tableCols, List.mem_map] at hc
      obtain ⟨p, hp, rfl⟩ := hc
      exact (mapContainsKey_iff _ _).mpr (List.mem_map.mpr ⟨p, hp, rfl⟩)
    · simpa using hns
  · rintro ⟨hck, hns⟩
    obtain hmem := (mapContainsKey_iff _ _).mp hck
    obtain ⟨p, hp, rfl⟩ := List.mem_map.mp hmem
    simp only [tableNotNullable, List.any_eq_true, List.mem_filter, beq_iff_eq]
    refine ⟨⟨p.1, setContains b.uniqueColumns p.1, p.2⟩, ⟨?_, ?_⟩, rfl⟩
    · exact List.mem_map.mpr ⟨p, hp, rfl⟩
    · simpa using hns

/-- C3: the builder accepts `addForeignKey` but it is an unimplemented
TODO; the constraint object exposed by `getSchema()` always carries an
empty foreign-key list, so the declared foreign key is never exposed.
The first conjunct evaluates the failing input, the second shows no
builder ever produces foreign-key metadata. -/
theorem C3_foreignKeys_empty :
    ((buildFrom "t" [.addColumn "a" .INTEGER,
        .addForeignKey "fk_a" "a" "r" "c" none]).map
      (fun b => (mkTable b).constraint.foreignKeys) = .ok []) ∧
    ∀ b : Builder, (mkTable b).constraint.foreignKeys = [] :=
  ⟨rfl, fun _ => rfl⟩

/-- C5: an index name appears in the unique-index list of the constraint
returned by `getSchema()` exactly when some successful builder call
declared it unique: `addPrimaryKey` (under the implicit pk name),
`addUnique`, or `addIndex` with the unique flag set; `addIndex` without
the flag contributes nothing. -/
theorem C5_unique_constraint (tn : String) (ops : List Op) (b : Builder)
    (hb : buildFrom tn ops = .ok b) (n : String) :
    ((mkTable b).constraint.unique.any (fun i => i.name == n)) =
      ops.any (fun op => opAddsUnique b.pkName op n) := by
  apply bool_eq_of_iff
  have h1 : ((mkTable b).constraint.unique.any (fun i => i.name == n)) = true ↔
      n ∈ b.uniqueIndices := tableUnique_any b n
  exact h1.trans (buildFrom_uniqueIndices_mem hb n)

/-- C5 witness: a concrete builder with a primary key, an `addUnique`
index, a non-unique `addIndex` index and a unique `addIndex` index. -/
theorem C5_unique_constraint_witness :
    (buildFrom "t" [.addColumn "a" .INTEGER, .addUnique "u" ["a"],
        .addIndex "i" (.strs ["a"]) none none,
        .addIndex "j" (.strs ["a"]) none (some true),
        .addPrimaryKey (.strs ["a"]) none] =
      .ok ⟨"t", [("a", .INTEGER)], ["a"], ["u", "j", "pkT"], [], "pkT",
        [("u", [⟨"a", .ASC, false⟩]), ("i", [⟨"a", .ASC, false⟩]),
         ("j", [⟨"a", .ASC, false⟩]), ("pkT", [⟨"a", .ASC, false⟩])],
        false⟩) ∧
    ((mkTable ⟨"t", [("a", .INTEGER)], ["a"], ["u", "j", "pkT"], [], "pkT",
        [("u", [⟨"a", .ASC, false⟩]), ("i", [⟨"a", .ASC, false⟩]),
         ("j", [⟨"a", .ASC, false⟩]), ("pkT", [⟨"a", .ASC, false⟩])],
        false⟩).constraint.unique.any (fun i => i.name == "i")) =
      [Op.addColumn "a" .INTEGER, .addUnique "u" ["a"],
        .addIndex "i" (.strs ["a"]) none none,
        .addIndex "j" (.strs ["a"]) none (some true),
        .addPrimaryKey (.strs ["a"]) none].any
        (fun op => opAddsUnique "pkT" op "i") := by
  constructor
  · rfl
  · exact C5_unique_constraint "t" _ _ (by rfl) "i"

/-- C6: a column name appears in the not-nullable list of the constraint
exactly when it was declared by a successful `addColumn` call and never
referenced by a successful `addNullable` call. -/
theorem C6_notNullable_constraint (tn : String) (ops : List Op) (b : Builder)
    (hb : buildFrom tn ops = .ok b) (n : String) :
    ((mkTable b).constraint.notNullable.any (fun c => c.name == n)) =
      (ops.any (fun op => opAddsColumn op n) &&
       !(ops.any (fun op => opAddsNullable op n))) := by
  apply bool_eq_of_iff
  have h1 := tableNotNullable_any b n
  have h2 := buildFrom_columnsKey hb n
  have h3 := buildFrom_nullable_mem hb n
  constructor
  · intro h
    obtain ⟨hck, hns⟩ := h1.mp h
    have ha : ops.any (fun op => opAddsColumn op n) = true := h2 ▸ hck
    have hb2 : ops.any (fun op => opAddsNullable op n) = false := by
      by_contra hx
      simp only [Bool.not_eq_false] at hx
      have : n ∈ b.nullable := h3.mpr hx
      rw [(setContains_iff b.nullable n).mpr this] at hns
      cases hns
    simp [ha, hb2]
  · intro h
    simp only [Bool.and_eq_true, Bool.not_eq_true'] at h
    apply h1.mpr
    constructor
    · rw [h2]
      exact h.1
    · by_contra hx
      simp only [Bool.not_eq_false] at hx
      have : n ∈ b.nullable := (setContains_iff b.nullable n).mp hx
      rw [h3.mp this] at h
      cases h.2

/-- C6 witness: two columns, one made nullable. -/
theorem C6_notNullable_constraint_witness :
    (buildFrom "t" [.addColumn "a" .INTEGER, .addColumn "b" .STRING,
        .addNullable ["b"]] =
      .ok ⟨"t", [("a", .INTEGER), ("b", .STRING)], [], [], ["b"], "pkT",
        [], false⟩) ∧
    ((mkTable ⟨"t", [("a", .INTEGER), ("b", .STRING)], [], [], ["b"], "pkT",
        [], false⟩).constraint.notNullable.any (fun c => c.name == "a")) =
      ([Op.addColumn "a" .INTEGER, .addColumn "b" .STRING,
        .addNullable ["b"]].any (fun op => opAddsColumn op "a") &&
       !([Op.addColumn "a" .INTEGER, .addColumn "b" .STRING,
        .addNullable ["b"]].any (fun op => opAddsNullable op "a"))) ∧
    ((mkTable ⟨"t", [("a", .INTEGER), ("b", .STRING)], [], [], ["b"], "pkT",
        [], false⟩).constraint.notNullable.any (fun c => c.name == "b")) =
      ([Op.addColumn "a" .INTEGER, .addColumn "b" .STRING,
        .addNullable ["b"]].any (fun op => opAddsColumn op "b") &&
       !([Op.addColumn "a" .INTEGER, .addColumn "b" .STRING,
        .addNullable ["b"]].any (fun op => opAddsNullable op "b"))) := by
  refine ⟨rfl, ?_, ?_⟩
  · exact C6_notNullable_constraint "t" _ _ (by rfl) "a"
  · exact C6_notNullable_constraint "t" _ _ (by rfl) "b"

/-- C7: for a table built by `TableBuilder`, `defaultPayload()` maps every
declared column name to `lf.type.DEFAULT_VALUES` at the column's type, and
a row created by `createRow()` with no payload carries exactly those
values. -/
theorem C7_default_payload (tn : String) (ops : List Op) (b : Builder)
    (hb : buildFrom tn ops = .ok b) (ht : rowClassOk b = true) (rowId : Int) :
    ∀ c ∈ (mkTable b).cols,
      getVal (defaultPayload (mkTable b).cols) c.name = DEFAULT_VALUES c.ty ∧
      getVal (createRow (mkTable b) rowId none).payload c.name =
        DEFAULT_VALUES c.ty := by
  intro c hc
  have hnd : ((mkTable b).cols.map BaseColumn.name).Nodup := by
    show ((tableCols b).map BaseColumn.name).Nodup
    rw [tableCols_names]
    exact (buildFrom_inv hb).1.colsNodup
  have h1 : getVal (defaultPayload (mkTable b).cols) c.name = DEFAULT_VALUES c.ty :=
    getVal_buildObj _ _ c hnd hc
  exact ⟨h1, h1⟩

/-- C7 witness: a table with one column of each type except the
non-indexable ones. -/
theorem C7_default_payload_witness :
    (buildFrom "t" [.addColumn "a" .INTEGER, .addColumn "b" .STRING,
        .addColumn "c" .DATE_TIME, .addColumn "d" .ARRAY_BUFFER] =
      .ok ⟨"t", [("a", .INTEGER), ("b", .STRING), ("c", .DATE_TIME),
        ("d", .ARRAY_BUFFER)], [], [], [], "pkT", [], false⟩) ∧
    (rowClassOk ⟨"t", [("a", .INTEGER), ("b", .STRING), ("c", .DATE_TIME),
        ("d", .ARRAY_BUFFER)], [], [], [], "pkT", [], false⟩ = true) ∧
    ∀ c ∈ (mkTable ⟨"t", [("a", .INTEGER), ("b", .STRING), ("c", .DATE_TIME),
        ("d", .ARRAY_BUFFER)], [], [], [], "pkT", [], false⟩).cols,
      getVal (defaultPayload (mkTable ⟨"t", [("a", .INTEGER), ("b", .STRING),
        ("c", .DATE_TIME), ("d", .ARRAY_BUFFER)], [], [], [], "pkT", [],
        false⟩).cols) c.name = DEFAULT_VALUES c.ty ∧
      getVal (createRow (mkTable ⟨"t", [("a", .INTEGER), ("b", .STRING),
        ("c", .DATE_TIME), ("d", .ARRAY_BUFFER)], [], [], [], "pkT", [],
        false⟩) 7 none).payload c.name = DEFAULT_VALUES c.ty := by
  refine ⟨rfl, rfl, ?_⟩
  exact C7_default_payload "t"
    [.addColumn "a" .INTEGER, .addColumn "b" .STRING,
      .addColumn "c" .DATE_TIME, .addColumn "d" .ARRAY_BUFFER]
    ⟨"t", [("a", .INTEGER), ("b", .STRING), ("c", .DATE_TIME),
      ("d", .ARRAY_BUFFER)], [], [], [], "pkT", [], false⟩
    (by rfl) (by rfl) 7

/-- C10: `keyOfIndex` on a row of a built table returns the row id for any
index name containing `'#'` (regardless of the declared indices), and
`null` for any name without `'#'` matching no declared index's normalized
name. -/
theorem C10_keyOfIndex_edge_cases (tn : String) (ops : List Op) (b : Builder)
    (hb : buildFrom tn ops = .ok b) (ht : rowClassOk b = true)
    (row : Row) (indexName : String) :
    (containsChar indexName '#' = true →
      keyOfIndex (mkTable b) row indexName = .vnum row.id) ∧
    (containsChar indexName '#' = false →
      ((mkTable b).indices.all
        (fun i => !(i.getNormalizedName == indexName))) = true →
      keyOfIndex (mkTable b) row indexName = .vnull) := by
  constructor
  · intro hh
    simp [keyOfIndex, hh]
  · intro hh hall
    have hnone : mapGet (mkTable b).functionMap indexName = none := by
      show mapGet (functionMapOf b) indexName = none
      rw [functionMapOf_eq]
      rw [foldFM_get_skip b _ _ _ ?hskip]
      · rfl
      case hskip =>
        intro p hp heq
        simp only [List.all_eq_true, Bool.not_eq_true',
          beq_eq_false_iff_ne] at hall
        have hmem : (⟨b.name, p.1, setContains b.uniqueIndices p.1, p.2⟩ :
            IndexSchema) ∈ (mkTable b).indices := by
          show _ ∈ tableIndices b
          exact List.mem_map.mpr ⟨p, hp, rfl⟩
        exact hall _ hmem heq
    simp [keyOfIndex, hh, hnone]

/-- C10 witness: a table with one index; an id-style name containing `'#'`
and an unmatched name. -/
theorem C10_keyOfIndex_edge_cases_witness :
    (buildFrom "t" [.addColumn "a" .INTEGER,
        .addIndex "idxA" (.strs ["a"]) none none] =
      .ok ⟨"t", [("a", .INTEGER)], [], [], [], "pkT",
        [("idxA", [⟨"a", .ASC, false⟩])], false⟩) ∧
    (containsChar "t.#" '#' = true ∧
      keyOfIndex (mkTable ⟨"t", [("a", .INTEGER)], [], [], [], "pkT",
        [("idxA", [⟨"a", .ASC, false⟩])], false⟩) ⟨42, []⟩ "t.#" =
        .vnum 42) ∧
    (containsChar "t.idxB" '#' = false ∧
      keyOfIndex (mkTable ⟨"t", [("a", .INTEGER)], [], [], [], "pkT",
        [("idxA", [⟨"a", .ASC, false⟩])], false⟩) ⟨42, []⟩ "t.idxB" =
        .vnull) := by
  refine ⟨rfl, ⟨rfl, ?_⟩, ⟨rfl, ?_⟩⟩
  · exact (C10_keyOfIndex_edge_cases "t"
      [.addColumn "a" .INTEGER, .addIndex "idxA" (.strs ["a"]) none none]
      ⟨"t", [("a", .INTEGER)], [], [], [], "pkT",
        [("idxA", [⟨"a", .ASC, false⟩])], false⟩
      (by rfl) (by rfl) ⟨42, []⟩ "t.#").1 rfl
  · exact (C10_keyOfIndex_edge_cases "t"
      [.addColumn "a" .INTEGER, .addIndex "idxA" (.strs ["a"]) none none]
      ⟨"t", [("a", .INTEGER)], [], [], [], "pkT",
        [("idxA", [⟨"a", .ASC, false⟩])], false⟩
      (by rfl) (by rfl) ⟨42, []⟩ "t.idxB").2 rfl (by rfl)

/-- C8 counterexample: the claimed iff fails at two concrete inputs.
(a) the constructor on the empty table name: the name fails the pattern
but the thrown error is a native `TypeError` from `toPascal_`
(`''[0].toUpperCase()`), not an `lf.Exception` of type SYNTAX;
(b) `addUnique` with a fresh pattern-conforming name but an undefined
referenced column still throws SYNTAX. -/
theorem C8_counterexample :
    (newBuilder "" = .error .typeError) ∧
    (validName "" = false) ∧
    (TableBuilder.addUnique ⟨"t", [("a", .INTEGER)], [], [], [], "pkT", [],
        false⟩ "u" ["b"] =
      .error (.lfException .SYNTAX "t does not have column: b")) ∧
    (nameOk ⟨"t", [("a", .INTEGER)], [], [], [], "pkT", [], false⟩ "u" =
      true) := by
  refine ⟨rfl, rfl, rfl, rfl⟩

/-- C8 (amended): the constructor on a nonempty name and `addColumn` throw
SYNTAX exactly when the introduced name fails the pattern or is already
defined; the constructor on the empty name throws a native `TypeError`
before any validation; and `addPrimaryKey`, `addUnique`, `addIndex` throw
SYNTAX exactly when their (implicit or supplied) name fails `checkName_`
or some referenced column is undefined or non-indexable. -/
theorem C8_name_validation :
    (∀ n, isTypeErr (newBuilder n) = (n == "")) ∧
    (∀ n, isSyntaxError (newBuilder n) = (!(n == "") && !(validName n))) ∧
    (∀ b n ty, isSyntaxError (TableBuilder.addColumn b n ty) = !(nameOk b n)) ∧
    (∀ b n ty, exOk (TableBuilder.addColumn b n ty) = nameOk b n) ∧
    (∀ b n cols, isSyntaxError (TableBuilder.addUnique b n cols) =
      (!(nameOk b n) || cols.any (colBad b true))) ∧
    (∀ b n carg o u, isSyntaxError (TableBuilder.addIndex b n carg o u) =
      (!(nameOk b n) || (argNames carg).any (colBad b true))) ∧
    (∀ b carg ai, isSyntaxError (TableBuilder.addPrimaryKey b carg ai) =
      (!(nameOk b b.pkName) || (argNames carg).any (colBad b true))) :=
  ⟨newBuilder_typeErr, newBuilder_syntaxErr, addColumn_syntaxErr, addColumn_ok,
   addUnique_syntaxErr, addIndex_syntaxErr, addPrimaryKey_syntaxErr⟩

/-- C9: `addPrimaryKey`, `addUnique` and `addIndex` throw SYNTAX whenever
a referenced column is undefined or of non-indexable type
(`ARRAY_BUFFER`/`OBJECT`); `addNullable` fails only when a referenced
column is undefined (and then with SYNTAX), and succeeds on defined
columns of any type. -/
theorem C9_column_validation :
    (∀ b carg ai, (argNames carg).any (colBad b true) = true →
      isSyntaxError (TableBuilder.addPrimaryKey b carg ai) = true) ∧
    (∀ b n cols, cols.any (colBad b true) = true →
      isSyntaxError (TableBuilder.addUnique b n cols) = true) ∧
    (∀ b n carg o u, (argNames carg).any (colBad b true) = true →
      isSyntaxError (TableBuilder.addIndex b n carg o u) = true) ∧
    (∀ b cols, exOk (TableBuilder.addNullable b cols) = false →
      isSyntaxError (TableBuilder.addNullable b cols) = true ∧
      cols.any (fun c => !(mapContainsKey b.columns c)) = true) ∧
    (∀ b cols, cols.all (fun c => mapContainsKey b.columns c) = true →
      exOk (TableBuilder.addNullable b cols) = true) := by
  refine ⟨?_, ?_, ?_, ?_, ?_⟩
  · intro b carg ai h
    rw [addPrimaryKey_syntaxErr, h]
    simp
  · intro b n cols h
    rw [addUnique_syntaxErr, h]
    simp
  · intro b n carg o u h
    rw [addIndex_syntaxErr, h]
    simp
  · intro b cols h
    rw [addNullable_ok, Bool.not_eq_false'] at h
    exact ⟨by rw [addNullable_syntaxErr]; exact h, h⟩
  · intro b cols h
    rw [addNullable_ok, Bool.not_eq_true']
    simp only [List.all_eq_true] at h
    simp only [List.any_eq_false]
    intro c hc
    simp [h c hc]

/-- C9 witness: each conjunct exercised at a concrete input — an index
over an undefined column, one over an `ARRAY_BUFFER` column, and
`addNullable` failing on an undefined column but accepting an
`ARRAY_BUFFER` column. -/
theorem C9_column_validation_witness :
    ((argNames (.strs ["x"])).any
        (colBad ⟨"t", [("a", .INTEGER)], [], [], [], "pkT", [], false⟩ true) =
      true ∧
     isSyntaxError (TableBuilder.addPrimaryKey
        ⟨"t", [("a", .INTEGER)], [], [], [], "pkT", [], false⟩
        (.strs ["x"]) none) = true) ∧
    (["ab"].any
        (colBad ⟨"t", [("ab", .ARRAY_BUFFER)], [], [], [], "pkT", [], false⟩
          true) = true ∧
     isSyntaxError (TableBuilder.addUnique
        ⟨"t", [("ab", .ARRAY_BUFFER)], [], [], [], "pkT", [], false⟩
        "u" ["ab"]) = true) ∧
    ((argNames (.strs ["ab"])).any
        (colBad ⟨"t", [("ab", .OBJECT)], [], [], [], "pkT", [], false⟩ true) =
      true ∧
     isSyntaxError (TableBuilder.addIndex
        ⟨"t", [("ab", .OBJECT)], [], [], [], "pkT", [], false⟩
        "i" (.strs ["ab"]) none none) = true) ∧
    (exOk (TableBuilder.addNullable
        ⟨"t", [("a", .INTEGER)], [], [], [], "pkT", [], false⟩ ["x"]) =
      false ∧
     isSyntaxError (TableBuilder.addNullable
        ⟨"t", [("a", .INTEGER)], [], [], [], "pkT", [], false⟩ ["x"]) = true ∧
     ["x"].any (fun c => !(mapContainsKey
        (⟨"t", [("a", .INTEGER)], [], [], [], "pkT", [], false⟩ :
          Builder).columns c)) = true) ∧
    (["ab"].all (fun c => mapContainsKey
        (⟨"t", [("ab", .ARRAY_BUFFER)], [], [], [], "pkT", [], false⟩ :
          Builder).columns c) = true ∧
     exOk (TableBuilder.addNullable
        ⟨"t", [("ab", .ARRAY_BUFFER)], [], [], [], "pkT", [], false⟩
        ["ab"]) = true) := by
  refine ⟨⟨rfl, ?_⟩, ⟨rfl, ?_⟩, ⟨rfl, ?_⟩, ?_, ⟨rfl, ?_⟩⟩
  · exact C9_column_validation.1 _ (.strs ["x"]) none rfl
  · exact C9_column_validation.2.1 _ "u" ["ab"] rfl
  · exact C9_column_validation.2.2.1 _ "i" (.strs ["ab"]) none none rfl
  · refine ⟨rfl, ?_⟩
    exact C9_column_validation.2.2.2.1 _ ["x"] rfl
  · exact C9_column_validation.2.2.2.2 _ ["ab"] rfl

theorem mkTable_cols (b : Builder) : (mkTable b).cols = tableCols b := rfl

theorem mkTable_pk (b : Builder) :
    (mkTable b).constraint.primaryKey = tablePk b := rfl

/-- C1: serializing a well-typed row of a built table into the persisted
record `{id: row.id(), value: row.toDbPayload()}` and deserializing it via
`deserializeRow` yields a row with the same id and, for every declared
column, the same payload value (`ArrayBuffer`s restored byte-for-byte via
hex, `Date`s restored with the same timestamp, `null`s preserved). -/
theorem C1_serialization_roundtrip (tn : String) (ops : List Op) (b : Builder)
    (row : Row) (hb : buildFrom tn ops = .ok b) (ht : rowClassOk b = true)
    (hwt : ∀ c ∈ (mkTable b).cols,
      wtVal c.ty (getVal row.payload c.name) = true) :
    (deserializeRow (mkTable b).cols
        ⟨row.id, toDbPayload (mkTable b).cols row.payload⟩).id = row.id ∧
    ∀ c ∈ (mkTable b).cols,
      getVal (deserializeRow (mkTable b).cols
          ⟨row.id, toDbPayload (mkTable b).cols row.payload⟩).payload c.name =
        getVal row.payload c.name := by
  have hnd : ((mkTable b).cols.map BaseColumn.name).Nodup := by
    rw [mkTable_cols, tableCols_names]
    exact (buildFrom_inv hb).1.colsNodup
  refine ⟨rfl, ?_⟩
  intro c hc
  show getVal (buildObj (mkTable b).cols
      (fun d => deserializeVal d.ty
        (getVal (toDbPayload (mkTable b).cols row.payload) d.name))) c.name = _
  rw [getVal_buildObj _ _ c hnd hc]
  show deserializeVal c.ty (getVal (buildObj (mkTable b).cols
      (fun d => serializeVal d.ty (getVal row.payload d.name))) c.name) = _
  rw [getVal_buildObj _ _ c hnd hc]
  exact deserializeVal_serializeVal c.ty _ (hwt c hc)

/-- C1 witness: a table with `ARRAY_BUFFER`, `DATE_TIME` and `STRING`
columns and a concrete row holding a binary payload, a negative-timestamp
date, and a string. -/
theorem C1_serialization_roundtrip_witness :
    (buildFrom "t" [.addColumn "a" .ARRAY_BUFFER, .addColumn "d" .DATE_TIME,
        .addColumn "s" .STRING] =
      .ok ⟨"t", [("a", .ARRAY_BUFFER), ("d", .DATE_TIME), ("s", .STRING)],
        [], [], [], "pkT", [], false⟩) ∧
    (rowClassOk ⟨"t", [("a", .ARRAY_BUFFER), ("d", .DATE_TIME),
        ("s", .STRING)], [], [], [], "pkT", [], false⟩ = true) ∧
    (∀ c ∈ (mkTable ⟨"t", [("a", .ARRAY_BUFFER), ("d", .DATE_TIME),
        ("s", .STRING)], [], [], [], "pkT", [], false⟩).cols,
      wtVal c.ty (getVal ([("a", JsVal.vbin [1, 255]), ("d", .vdate (-3)),
        ("s", .vstr "z")]) c.name) = true) ∧
    ((deserializeRow (mkTable ⟨"t", [("a", .ARRAY_BUFFER), ("d", .DATE_TIME),
          ("s", .STRING)], [], [], [], "pkT", [], false⟩).cols
        ⟨5, toDbPayload (mkTable ⟨"t", [("a", .ARRAY_BUFFER),
            ("d", .DATE_TIME), ("s", .STRING)], [], [], [], "pkT", [],
            false⟩).cols
          [("a", JsVal.vbin [1, 255]), ("d", .vdate (-3)),
            ("s", .vstr "z")]⟩).id = 5 ∧
      ∀ c ∈ (mkTable ⟨"t", [("a", .ARRAY_BUFFER), ("d", .DATE_TIME),
          ("s", .STRING)], [], [], [], "pkT", [], false⟩).cols,
        getVal (deserializeRow (mkTable ⟨"t", [("a", .ARRAY_BUFFER),
            ("d", .DATE_TIME), ("s", .STRING)], [], [], [], "pkT", [],
            false⟩).cols
          ⟨5, toDbPayload (mkTable ⟨"t", [("a", .ARRAY_BUFFER),
              ("d", .DATE_TIME), ("s", .STRING)], [], [], [], "pkT", [],
              false⟩).cols
            [("a", JsVal.vbin [1, 255]), ("d", .vdate (-3)),
              ("s", .vstr "z")]⟩).payload c.name =
          getVal ([("a", JsVal.vbin [1, 255]), ("d", .vdate (-3)),
            ("s", .vstr "z")]) c.name) := by
  refine ⟨rfl, rfl, by decide, ?_⟩
  exact C1_serialization_roundtrip "t"
    [.addColumn "a" .ARRAY_BUFFER, .addColumn "d" .DATE_TIME,
      .addColumn "s" .STRING]
    ⟨"t", [("a", .ARRAY_BUFFER), ("d", .DATE_TIME), ("s", .STRING)],
      [], [], [], "pkT", [], false⟩
    ⟨5, [("a", JsVal.vbin [1, 255]), ("d", .vdate (-3)), ("s", .vstr "z")]⟩
    rfl rfl (by decide)

/-- C2: for a declared index of a built table, `keyOfIndex` at the index's
normalized name extracts the payload value of the index's first column —
as an integer timestamp when that column's declared type is `DATE_TIME` —
and the columns after the first never influence the key (the key value
depends only on `ic0`, never on `rest`). -/
theorem C2_keyOfIndex_first_column (tn : String) (ops : List Op) (b : Builder)
    (hb : buildFrom tn ops = .ok b) (ht : rowClassOk b = true)
    (i : IndexSchema) (hi : i ∈ (mkTable b).indices)
    (ic0 : IndexedColumn) (rest : List IndexedColumn)
    (hcols : i.columns = ic0 :: rest) (row : Row)
    (hnn : getVal row.payload ic0.name ≠ .vnull) :
    (mapGet b.columns ic0.name ≠ some .DATE_TIME →
      keyOfIndex (mkTable b) row i.getNormalizedName =
        getVal row.payload ic0.name) ∧
    (∀ ts, mapGet b.columns ic0.name = some .DATE_TIME →
      getVal row.payload ic0.name = .vdate ts →
      keyOfIndex (mkTable b) row i.getNormalizedName = .vnum ts) := by
  obtain ⟨inv, hname⟩ := buildFrom_inv hb
  obtain ⟨p, hp, rfl⟩ := List.mem_map.mp hi
  obtain ⟨pk, pcols⟩ := p
  have hpc : pcols = ic0 :: rest := hcols
  subst hpc
  have hvk : validName pk = true :=
    inv.idxValid pk (List.mem_map.mpr ⟨(pk, ic0 :: rest), hp, rfl⟩)
  have hhash : containsChar (b.name ++ "." ++ pk) '#' = false :=
    containsChar_normName _ _ inv.nameValid hvk
  have hget : mapGet (functionMapOf b) (b.name ++ "." ++ pk) =
      some (indexKeyFn b.columns ic0.name) := by
    rw [functionMapOf_eq]
    exact foldFM_get_mem b b.indices pk ic0 rest [] inv.idxNodup hp
  have hko : keyOfIndex (mkTable b) row
      (IndexSchema.getNormalizedName
        ⟨b.name, pk, setContains b.uniqueIndices pk, ic0 :: rest⟩) =
      indexKeyFn b.columns ic0.name row.payload := by
    show keyOfIndex (mkTable b) row (b.name ++ "." ++ pk) = _
    unfold keyOfIndex
    have hfm : mapGet (mkTable b).functionMap (b.name ++ "." ++ pk) =
        some (indexKeyFn b.columns ic0.name) := hget
    rw [hhash, hfm]
    simp
  constructor
  · intro hne
    rw [hko]
    simp [indexKeyFn, hne]
  · intro ts hdt hval
    rw [hko]
    simp [indexKeyFn, hdt, hval, getTimeVal]

/-- C2 witness: a `DATE_TIME`-first two-column index and an
`INTEGER`-first index on the same table. -/
theorem C2_keyOfIndex_first_column_witness :
    (buildFrom "t" [.addColumn "d" .DATE_TIME, .addColumn "a" .INTEGER,
        .addIndex "idxD" (.strs ["d", "a"]) none none,
        .addIndex "idxA" (.strs ["a", "d"]) none none] =
      .ok ⟨"t", [("d", .DATE_TIME), ("a", .INTEGER)], [], [], [], "pkT",
        [("idxD", [⟨"d", .ASC, false⟩, ⟨"a", .ASC, false⟩]),
         ("idxA", [⟨"a", .ASC, false⟩, ⟨"d", .ASC, false⟩])], false⟩) ∧
    (keyOfIndex (mkTable ⟨"t", [("d", .DATE_TIME), ("a", .INTEGER)], [], [],
        [], "pkT", [("idxD", [⟨"d", .ASC, false⟩, ⟨"a", .ASC, false⟩]),
         ("idxA", [⟨"a", .ASC, false⟩, ⟨"d", .ASC, false⟩])], false⟩)
      ⟨7, [("d", .vdate 123), ("a", .vnum 9)]⟩ "t.idxD" = .vnum 123) ∧
    (keyOfIndex (mkTable ⟨"t", [("d", .DATE_TIME), ("a", .INTEGER)], [], [],
        [], "pkT", [("idxD", [⟨"d", .ASC, false⟩, ⟨"a", .ASC, false⟩]),
         ("idxA", [⟨"a", .ASC, false⟩, ⟨"d", .ASC, false⟩])], false⟩)
      ⟨7, [("d", .vdate 123), ("a", .vnum 9)]⟩ "t.idxA" = .vnum 9) := by
  refine ⟨rfl, ?_, ?_⟩
  · exact (C2_keyOfIndex_first_column "t"
      [.addColumn "d" .DATE_TIME, .addColumn "a" .INTEGER,
        .addIndex "idxD" (.strs ["d", "a"]) none none,
        .addIndex "idxA" (.strs ["a", "d"]) none none]
      ⟨"t", [("d", .DATE_TIME), ("a", .INTEGER)], [], [], [], "pkT",
        [("idxD", [⟨"d", .ASC, false⟩, ⟨"a", .ASC, false⟩]),
         ("idxA", [⟨"a", .ASC, false⟩, ⟨"d", .ASC, false⟩])], false⟩
      rfl rfl
      ⟨"t", "idxD", false, [⟨"d", .ASC, false⟩, ⟨"a", .ASC, false⟩]⟩
      (by decide) ⟨"d", .ASC, false⟩ [⟨"a", .ASC, false⟩] rfl
      ⟨7, [("d", .vdate 123), ("a", .vnum 9)]⟩ (by decide)).2 123 rfl rfl
  · exact (C2_keyOfIndex_first_column "t"
      [.addColumn "d" .DATE_TIME, .addColumn "a" .INTEGER,
        .addIndex "idxD" (.strs ["d", "a"]) none none,
        .addIndex "idxA" (.strs ["a", "d"]) none none]
      ⟨"t", [("d", .DATE_TIME), ("a", .INTEGER)], [], [], [], "pkT",
        [("idxD", [⟨"d", .ASC, false⟩, ⟨"a", .ASC, false⟩]),
         ("idxA", [⟨"a", .ASC, false⟩, ⟨"d", .ASC, false⟩])], false⟩
      rfl rfl
      ⟨"t", "idxA", false, [⟨"a", .ASC, false⟩, ⟨"d", .ASC, false⟩]⟩
      (by decide) ⟨"a", .ASC, false⟩ [⟨"d", .ASC, false⟩] rfl
      ⟨7, [("d", .vdate 123), ("a", .vnum 9)]⟩ (by decide)).1 (by decide)

theorem applyOps_append {b b' : Builder} : ∀ (l1 l2 : List Op),
    applyOps b (l1 ++ l2) = .ok b' →
    ∃ bm, applyOps b l1 = .ok bm ∧ applyOps bm l2 = .ok b' := by
  intro l1
  induction l1 generalizing b with
  | nil =>
      intro l2 h
      exact ⟨b, rfl, h⟩
  | cons op rest ih =>
      intro l2 h
      rw [List.cons_append] at h
      obtain ⟨b1, h1, h2⟩ := applyOps_cons_elim h
      obtain ⟨bm, hm1, hm2⟩ := ih l2 h2
      refine ⟨bm, ?_, hm2⟩
      rw [applyOps, h1]
      exact hm1

/-- C4 counterexample: a trace that never calls `addPrimaryKey` but adds a
plain (non-unique) index under the implicit primary-key name
`'pk' + PascalCase(tableName)`; the constraint's primary key is then not
null, contradicting the claim's "if addPrimaryKey was never called, the
constraint's primary key is null". -/
theorem C4_counterexample :
    ((buildFrom "foo" [.addColumn "a" .INTEGER,
        .addIndex "pkFoo" (.strs ["a"]) none none]).map
      (fun b => ((mkTable b).constraint.primaryKey).isSome) = .ok true) ∧
    ([Op.addColumn "a" .INTEGER,
        Op.addIndex "pkFoo" (.strs ["a"]) none none].any opIsPrimaryKey) =
      false :=
  ⟨rfl, rfl⟩

/-- C4 (amended): for a successful trace containing `addPrimaryKey` exactly
once, the constraint's primary key is the always-unique index named
`'pk' + PascalCase(tableName)` over exactly the normalized columns of that
call, and each of those columns is marked unique; and the primary key is
non-null exactly when some call stored an index under the primary-key name
(`addPrimaryKey`, or `addUnique`/`addIndex` given that name) — in
particular it is null when no call did, but not merely when
`addPrimaryKey` was never called. -/
theorem C4_primaryKey_metadata (tn : String) (ops : List Op) (b : Builder)
    (hb : buildFrom tn ops = .ok b) :
    (∀ pas, toPascal tn = .ok pas → b.pkName = "pk" ++ pas) ∧
    (∀ pre carg ai post, ops = pre ++ .addPrimaryKey carg ai :: post →
      pre.any opIsPrimaryKey = false → post.any opIsPrimaryKey = false →
      (mkTable b).constraint.primaryKey =
        some ⟨tn, b.pkName, true, normalizeArg carg none ai⟩ ∧
      ∀ ic ∈ normalizeArg carg none ai,
        ∃ c ∈ (mkTable b).cols, c.name = ic.name ∧ c.isUnique = true) ∧
    (((mkTable b).constraint.primaryKey).isSome =
      ops.any (fun op => opSetsIndex b.pkName op b.pkName)) := by
  obtain ⟨b0, h0, hall⟩ := buildFrom_ok_elim hb
  obtain ⟨hname0, -, -, -, -, -, -, -, pas0, hpas0, hpk0⟩ := newBuilder_ok_elim h0
  have hpk : b.pkName = b0.pkName := (applyOps_fields hall).2
  have hbname : b.name = tn := (buildFrom_inv hb).2
  refine ⟨?_, ?_, ?_⟩
  · intro pas hpas
    rw [hpas0] at hpas
    cases hpas
    rw [hpk, hpk0]
  · intro pre carg ai post hops hpre hpost
    subst hops
    obtain ⟨b1, hl1, hrest⟩ := applyOps_append pre _ hall
    obtain ⟨b2, hop, hl2⟩ := applyOps_cons_elim hrest
    obtain ⟨hok, hcc, hb2⟩ := addPrimaryKey_ok_elim hop
    have hb2cols : b2.columns = b1.columns := by rw [hb2]
    have hb2idx : b2.indices =
        mapSet b1.indices b1.pkName (normalizeArg carg none ai) := by rw [hb2]
    have hb2uc : b2.uniqueColumns =
        (normalizeArg carg none ai).foldl (fun s c => setAdd s c.name)
          b1.uniqueColumns := by rw [hb2]
    have hpk2 : b.pkName = b1.pkName := by
      rw [(applyOps_fields hl2).2, hb2]
    have hmg2 : mapGet b2.indices b1.pkName =
        some (normalizeArg carg none ai) := by
      rw [hb2idx]
      exact mapGet_set_self _ _ _
    have hck2 : mapContainsKey b2.indices b1.pkName = true := by
      rw [mapContainsKey, hmg2]
      rfl
    have hmg : mapGet b.indices b1.pkName =
        some (normalizeArg carg none ai) := by
      rw [applyOps_indices_preserve hl2 b1.pkName hck2]
      exact hmg2
    have hckb : mapContainsKey b.indices b.pkName = true := by
      rw [mapContainsKey, hpk2, hmg]
      rfl
    constructor
    · rw [mkTable_pk]
      unfold tablePk
      rw [if_pos hckb, hbname, hpk2, hmg]
      rfl
    · intro ic hic
      have hcol1 : mapContainsKey b1.columns ic.name = true :=
        checkCols_ok_forall hcc ic hic
      have hcolb : mapContainsKey b.columns ic.name = true := by
        rw [applyOps_columnsKey hl2 ic.name, hb2cols, hcol1]
        rfl
      have huc2 : ic.name ∈ b2.uniqueColumns := by
        rw [hb2uc]
        exact (mem_foldl_setAdd _ _ _ _).mpr (Or.inr ⟨ic, hic, rfl⟩)
      have hucb : ic.name ∈ b.uniqueColumns :=
        applyOps_uniqueColumns_mono hl2 ic.name huc2
      obtain ⟨ty, hty⟩ := Option.isSome_iff_exists.mp hcolb
      refine ⟨⟨ic.name, setContains b.uniqueColumns ic.name, ty⟩, ?_, rfl, ?_⟩
      · rw [mkTable_cols]
        exact List.mem_map.mpr ⟨(ic.name, ty), mapGet_eq_some_mem hty, rfl⟩
      · exact (setContains_iff _ _).mpr hucb
  · rw [mkTable_pk, ← buildFrom_indicesKey hb b.pkName]
    unfold tablePk
    by_cases hck : mapContainsKey b.indices b.pkName = true
    · rw [if_pos hck, hck]
      rfl
    · simp only [Bool.not_eq_true] at hck
      rw [hck]
      simp

/-- C4 witness: a trace with exactly one `addPrimaryKey` call. -/
theorem C4_primaryKey_metadata_witness :
    (buildFrom "t" [.addColumn "a" .INTEGER,
        .addPrimaryKey (.strs ["a"]) none] =
      .ok ⟨"t", [("a", .INTEGER)], ["a"], ["pkT"], [], "pkT",
        [("pkT", [⟨"a", .ASC, false⟩])], false⟩) ∧
    ((mkTable ⟨"t", [("a", .INTEGER)], ["a"], ["pkT"], [], "pkT",
        [("pkT", [⟨"a", .ASC, false⟩])], false⟩).constraint.primaryKey =
      some ⟨"t", "pkT", true, [⟨"a", .ASC, false⟩]⟩ ∧
     ∀ ic ∈ normalizeArg (.strs ["a"]) none none,
      ∃ c ∈ (mkTable ⟨"t", [("a", .INTEGER)], ["a"], ["pkT"], [], "pkT",
          [("pkT", [⟨"a", .ASC, false⟩])], false⟩).cols,
        c.name = ic.name ∧ c.isUnique = true) ∧
    (((mkTable ⟨"t", [("a", .INTEGER)], ["a"], ["pkT"], [], "pkT",
        [("pkT", [⟨"a", .ASC, false⟩])], false⟩).constraint.primaryKey).isSome =
      [Op.addColumn "a" .INTEGER, Op.addPrimaryKey (.strs ["a"]) none].any
        (fun op => opSetsIndex "pkT" op "pkT")) := by
  refine ⟨rfl, ?_, ?_⟩
  · exact (C4_primaryKey_metadata "t"
      [.addColumn "a" .INTEGER, .addPrimaryKey (.strs ["a"]) none]
      ⟨"t", [("a", .INTEGER)], ["a"], ["pkT"], [], "pkT",
        [("pkT", [⟨"a", .ASC, false⟩])], false⟩ rfl).2.1
      [.addColumn "a" .INTEGER] (.strs ["a"]) none [] rfl rfl rfl
  · exact (C4_primaryKey_metadata "t"
      [.addColumn "a" .INTEGER, .addPrimaryKey (.strs ["a"]) none]
      ⟨"t", [("a", .INTEGER)], ["a"], ["pkT"], [], "pkT",
        [("pkT", [⟨"a", .ASC, false⟩])], false⟩ rfl).2.2
